import Mathlib

/-!
Verification development for the TinyDB storage engine
(`src/internal/db/bplustree.go`, `src/internal/db/wal.go`,
`src/internal/db/engine.go`).

The Go code is shallowly embedded: mutable tree nodes become a pure
inductive type and every mutating method returns the new value; Go maps
(whose iteration order is unspecified, and which the engine only uses in
order-insensitive ways or sorts explicitly before display) are embedded as
association lists in insertion order; the write-ahead log file becomes the
list of appended text lines.
-/

namespace TinyDB

/-! ## Go maps over string keys

A Go `map[string]V` is embedded as an association list with unique keys
kept in insertion order: `m[k] = v` overwrites in place or appends,
`delete(m, k)` removes the entry, `m[k]` / `_, ok := m[k]` is `get?`, and
`range` iteration is the list order (the Go iteration order is unspecified;
the engine and WAL only iterate maps in order-insensitive ways or sort the
keys before use, so a fixed order is a faithful representative). -/

abbrev Smap (α : Type) : Type := List (String × α)

namespace Smap

def get? (m : Smap α) (k : String) : Option α :=
  (m.find? (fun p => p.1 = k)).map Prod.snd

def set (m : Smap α) (k : String) (v : α) : Smap α :=
  match m with
  | [] => [(k, v)]
  | (k0, v0) :: r => if k0 = k then (k, v) :: r else (k0, v0) :: set r k v

def erase (m : Smap α) (k : String) : Smap α :=
  match m with
  | [] => []
  | (k0, v0) :: r => if k0 = k then r else (k0, v0) :: erase r k

/-- `m[k]` read with the Go zero-value semantics for a missing key. -/
def getD (m : Smap α) (k : String) (d : α) : α := (get? m k).getD d

end Smap

/-! ## B+ tree (`src/internal/db/bplustree.go`)

A `BPlusTreeNode` has `isLeaf`, parallel `keys`/`values` arrays (leaf) or
`keys`/`children` with `len(children) == len(keys)+1` (internal), and leaf
chain pointers `next`.  We embed a leaf as a single list of key/value
pairs (entry `i` holds `keys[i]` and `values[i]`), and an internal node as
its first child together with the list of (separator, child) pairs, so
that `keys = seps.map fst` and `children = child :: seps.map snd`; the
`children = keys + 1` shape invariant is structural.  The leaf `next`
pointers always link the leaves in left-to-right order (`splitLeaf` sets
`sibling.next = n.next; n.next = sibling`, and leaf `merge` sets
`sibling1.next = sibling2.next`), so the chain is recovered as the
in-order sequence of leaves. -/

/-- `ORDER` from bplustree.go: max children per internal node. -/
def ORDER : Nat := 4

/-- `MIN_KEYS = (ORDER / 2) - 1`: minimum keys for a node not to underflow. -/
def MIN_KEYS : Nat := (ORDER / 2) - 1

inductive BNode : Type where
  | leaf (entries : List (String × String)) : BNode
  | node (child : BNode) (seps : List (String × BNode)) : BNode
deriving Inhabited

namespace BNode

/-- Keys of a node (for an internal node, the separator keys). -/
def nodeKeys : BNode → List String
  | .leaf es => es.map Prod.fst
  | .node _ seps => seps.map Prod.fst

/-- Children of an internal node (empty list for a leaf). -/
def nodeChildren : BNode → List BNode
  | .leaf _ => []
  | .node c seps => c :: seps.map Prod.snd

end BNode

/-- Leaf insertion scan of `insert` (bplustree.go lines 56-69): advance
while `n.keys[i] < key`; if `n.keys[i] == key` overwrite the value in
place, otherwise insert the new pair at position `i`. -/
def leafIns : List (String × String) → String → String → List (String × String)
  | [], k, v => [(k, v)]
  | (k0, v0) :: es, k, v =>
    if k0 < k then (k0, v0) :: leafIns es k v
    else if k0 = k then (k, v) :: es
    else (k, v) :: (k0, v0) :: es

/-- `splitLeaf` (bplustree.go lines 105-127): divide the entry arrays at
`mid = len/2`, the right half becomes a new chained sibling and its first
key is promoted.  The `[]` case is unreachable: the split only runs on a
leaf holding `ORDER` keys. -/
def splitLeafList (es : List (String × String)) : BNode × Option (String × BNode) :=
  let mid := es.length / 2
  match es.drop mid with
  | [] => (.leaf es, none)
  | (rk, rv) :: r => (.leaf (es.take mid), some (rk, .leaf ((rk, rv) :: r)))

/-- `splitInternal` (bplustree.go lines 129-152): `midKeyIndex = len/2`;
the middle key is promoted (removed from both halves), the left half keeps
`children[:mid+1]`, the new sibling gets `keys[mid+1:]`/`children[mid+1:]`.
The `[]` case is unreachable (split only runs with `ORDER` keys). -/
def splitInternalList (c : BNode) (seps : List (String × BNode)) :
    BNode × Option (String × BNode) :=
  let mid := seps.length / 2
  match seps.drop mid with
  | [] => (.node c seps, none)
  | (pk, pc) :: r => (.node c (seps.take mid), some (pk, .node pc r))

mutual

/-- `(*BPlusTreeNode).insert` (bplustree.go lines 54-103).  Returns the
updated node plus `some (promotedKey, newSibling)` when the node split
(the first return value of the Go function is always nil and is dropped).
On a leaf the Go code re-checks fullness only after a genuine insertion,
but an overwrite never changes the length, so checking after either is
the same. -/
def insertNode : BNode → String → String → BNode × Option (String × BNode)
  | .leaf es, k, v =>
    let es' := leafIns es k v
    if es'.length < ORDER then (.leaf es', none) else splitLeafList es'
  | .node c seps, k, v =>
    let p := insertWalk c seps k v
    if p.2.length < ORDER then (.node p.1 p.2, none) else splitInternalList p.1 p.2
termination_by n _ _ => sizeOf n

/-- The internal-node descent of `insert` (bplustree.go lines 81-94):
advance `i` while `key > n.keys[i]` (so a key equal to a separator stops
and descends into the left child), recurse into `children[i]`, and if the
child split, place the promoted key at position `i` of `keys` and the new
sibling at position `i+1` of `children` — i.e. the (promoted, sibling)
pair goes immediately after the child that split. -/
def insertWalk : BNode → List (String × BNode) → String → String →
    BNode × List (String × BNode)
  | c, [], k, v =>
    match insertNode c k v with
    | (c', none) => (c', [])
    | (c', some (m, sib)) => (c', [(m, sib)])
  | c, (s, c1) :: rest, k, v =>
    if k > s then
      let p := insertWalk c1 rest k v
      (c, (s, p.1) :: p.2)
    else
      match insertNode c k v with
      | (c', none) => (c', (s, c1) :: rest)
      | (c', some (m, sib)) => (c', (m, sib) :: (s, c1) :: rest)
termination_by c seps _ _ => sizeOf c + sizeOf seps

end

structure BPlusTree where
  root : BNode
deriving Inhabited

/-- `NewBPlusTree`: an empty tree is a single empty leaf as root. -/
def NewBPlusTree : BPlusTree := ⟨.leaf []⟩

/-- `(*BPlusTree).Insert` (bplustree.go lines 33-47): insert at the root;
if the root split, a new root with one separator and two children is
created. -/
def BPlusTree.Insert (t : BPlusTree) (key value : String) : BPlusTree :=
  match insertNode t.root key value with
  | (r, none) => ⟨r⟩
  | (r, some (m, sib)) => ⟨.node r [(m, sib)]⟩

mutual

/-- `(*BPlusTree).Get` descent (bplustree.go lines 157-174): advance while
`key >= node.keys[i]` (ties route right), then scan the reached leaf for
an equal key. -/
def getNode : BNode → String → Option String
  | .leaf es, k => (es.find? (fun e => e.1 = k)).map Prod.snd
  | .node c seps, k => getWalk c seps k
termination_by n _ => sizeOf n

def getWalk : BNode → List (String × BNode) → String → Option String
  | c, [], k => getNode c k
  | c, (s, c1) :: rest, k => if k ≥ s then getWalk c1 rest k else getNode c k
termination_by c seps _ => sizeOf c + sizeOf seps

end

def BPlusTree.Get (t : BPlusTree) (key : String) : Option String :=
  getNode t.root key

mutual

/-- In-order concatenation of the leaf entries.  Because the leaf `next`
chain always links the leaves in left-to-right order, this is exactly the
sequence of entries visited by a walk of the chain from the leftmost
leaf. -/
def toEntries : BNode → List (String × String)
  | .leaf es => es
  | .node c seps => toEntries c ++ toEntriesSeps seps
termination_by n => sizeOf n

def toEntriesSeps : List (String × BNode) → List (String × String)
  | [] => []
  | (_, c) :: rest => toEntries c ++ toEntriesSeps rest
termination_by seps => sizeOf seps

end

/-- `deleteFromLeaf` entry removal (bplustree.go lines 230-248): remove the
first entry with an equal key; the second component reports whether a key
was found and removed. -/
def delFromLeaf : List (String × String) → String → List (String × String) × Bool
  | [], _ => ([], false)
  | (k0, v0) :: es, k =>
    if k0 = k then (es, true)
    else
      let p := delFromLeaf es k
      ((k0, v0) :: p.1, p.2)

/-- First key of a node (`keys[0]`), `""` when there is none (the Go code
only reads `keys[0]` on nodes its guards have established non-empty). -/
def headKeyD : BNode → String
  | .leaf es => ((es.head?).map Prod.fst).getD ""
  | .node _ seps => ((seps.head?).map Prod.fst).getD ""

/-- `redistribute` (bplustree.go lines 290-348).  Takes the key
array of the parent and the two siblings (`sibling1` donates, `sibling2` receives);
returns the updated parent keys and siblings.  The fourth parameter of the Go
method `childIndexToUpdate` is never read in its body.  The first
guard returns unchanged when either sibling has no keys — which, since
`MIN_KEYS = 1` makes every underflowing node empty, fires on every call
from `handleUnderflow`. -/
def redistribute (parentKeys : List String) (s1 s2 : BNode) (sepIdx : Nat)
    (_childIndexToUpdate : Nat) : List String × BNode × BNode :=
  if (s1.nodeKeys).length = 0 ∨ (s2.nodeKeys).length = 0 then (parentKeys, s1, s2)
  else
    match s1, s2 with
    | .leaf es1, .leaf es2 =>
      if headKeyD (.leaf es1) < headKeyD (.leaf es2) then
        -- sibling1 is the left sibling: move its last entry to the front of
        -- sibling2; the parent separator becomes the new first key of sibling2.
        match es1.getLast? with
        | none => (parentKeys, .leaf es1, .leaf es2)
        | some (mk, mv) =>
          (parentKeys.set sepIdx mk, .leaf es1.dropLast, .leaf ((mk, mv) :: es2))
      else
        -- sibling1 is the right sibling: move its first entry to the end of
        -- sibling2; the parent separator becomes the new first key of sibling1.
        match es1 with
        | [] => (parentKeys, .leaf es1, .leaf es2)
        | (mk, mv) :: es1' =>
          (parentKeys.set sepIdx (((es1'.head?).map Prod.fst).getD ""),
            .leaf es1', .leaf (es2 ++ [(mk, mv)]))
    | .node c1 seps1, .node c2 seps2 =>
      if headKeyD (.node c1 seps1) < headKeyD (.node c2 seps2) then
        -- Left internal sibling donates: the parent separator is pulled down
        -- in front of sibling2, replaced by the last key of sibling1, whose
        -- last child moves to the front of sibling2.
        let promotedKey := parentKeys.getD sepIdx ""
        match seps1.getLast? with
        | none => (parentKeys, .node c1 seps1, .node c2 seps2)
        | some (lk, lc) =>
          (parentKeys.set sepIdx lk, .node c1 seps1.dropLast,
            .node lc ((promotedKey, c2) :: seps2))
      else
        -- Right internal sibling donates: the parent separator is pulled
        -- down to the end of sibling2, replaced by the first key of sibling1,
        -- whose first child moves to the end of sibling2.
        let promotedKey := parentKeys.getD sepIdx ""
        match seps1 with
        | [] => (parentKeys, .node c1 seps1, .node c2 seps2)
        | (fk, fc) :: seps1' =>
          -- `children[0]` (= `c1`) moves to the end of sibling2; sibling1
          -- keeps `keys[1:]`/`children[1:]`, so `fc` becomes its first child.
          (parentKeys.set sepIdx fk, .node fc seps1',
            .node c2 (seps2 ++ [(promotedKey, c1)]))
    | _, _ => (parentKeys, s1, s2)

/-- `merge` (bplustree.go lines 354-370), the sibling half: sibling2 is
absorbed into sibling1 (for internal nodes the parent separator is pulled
down between them; for leaves the chain is spliced). -/
def mergeSiblings (parentKeys : List String) (s1 s2 : BNode) (sepIdx : Nat) : BNode :=
  match s1, s2 with
  | .leaf es1, .leaf es2 => .leaf (es1 ++ es2)
  | .node c1 seps1, .node c2 seps2 =>
    .node c1 (seps1 ++ (parentKeys.getD sepIdx "", c2) :: seps2)
  | _, _ => s1

/-- `handleUnderflow` (bplustree.go lines 253-283) on the parent
key/child arrays with the underflowing child at `childIndex`: try to
borrow from the left then the right sibling when it holds more than
`MIN_KEYS` keys, otherwise merge (removing the consumed separator and
child from the parent); returns the updated arrays and whether the parent
now underflows. -/
def handleUnderflow (keys : List String) (children : List BNode) (childIndex : Nat) :
    List String × List BNode × Bool :=
  let under := children.getD childIndex (.leaf [])
  if childIndex > 0 ∧
      ((children.getD (childIndex - 1) (.leaf [])).nodeKeys).length > MIN_KEYS then
    let leftSibling := children.getD (childIndex - 1) (.leaf [])
    let r := redistribute keys leftSibling under (childIndex - 1) childIndex
    (r.1, (children.set (childIndex - 1) r.2.1).set childIndex r.2.2, false)
  else if childIndex < children.length - 1 ∧
      ((children.getD (childIndex + 1) (.leaf [])).nodeKeys).length > MIN_KEYS then
    let rightSibling := children.getD (childIndex + 1) (.leaf [])
    let r := redistribute keys under rightSibling childIndex (childIndex + 1)
    (r.1, (children.set childIndex r.2.1).set (childIndex + 1) r.2.2, false)
  else if childIndex > 0 then
    -- Merge the underflowing child into its left sibling.
    let leftSibling := children.getD (childIndex - 1) (.leaf [])
    let merged := mergeSiblings keys leftSibling under (childIndex - 1)
    let keys' := keys.eraseIdx (childIndex - 1)
    let children' := ((children.set (childIndex - 1) merged).eraseIdx childIndex)
    (keys', children', decide (keys'.length < MIN_KEYS))
  else
    -- Merge the right sibling into the underflowing child.
    let rightSibling := children.getD (childIndex + 1) (.leaf [])
    let merged := mergeSiblings keys under rightSibling childIndex
    let keys' := keys.eraseIdx childIndex
    let children' := ((children.set childIndex merged).eraseIdx (childIndex + 1))
    (keys', children', decide (keys'.length < MIN_KEYS))

/-- Rebuild a node from parallel key/child arrays
(`len(children) == len(keys)+1`); the empty-children case is
unreachable. -/
def mkInternal (keys : List String) (children : List BNode) : BNode :=
  match children with
  | [] => .leaf []
  | c :: cs => .node c (keys.zip cs)

mutual

/-- `(*BPlusTreeNode).delete` (bplustree.go lines 208-226): a leaf deletes
locally (`deleteFromLeaf` reports underflow only when a key was removed
and the node fell below `MIN_KEYS`); an internal node routes with
`key >= n.keys[i]`, recurses, and resolves a child underflow with
`handleUnderflow`.  Returns the new node and the underflow flag. -/
def delNode : BNode → String → BNode × Bool
  | .leaf es, k =>
    let p := delFromLeaf es k
    (.leaf p.1, p.2 && decide (p.1.length < MIN_KEYS))
  | .node c seps, k =>
    let w := delWalk c seps k
    if w.2.1 then
      let keys := (w.1.2).map Prod.fst
      let children := w.1.1 :: (w.1.2).map Prod.snd
      let r := handleUnderflow keys children w.2.2
      (mkInternal r.1 r.2.1, r.2.2)
    else
      (.node w.1.1 w.1.2, false)
termination_by n _ => sizeOf n

/-- The internal-node descent of `delete`: advance while `key >= keys[i]`,
recurse into `children[i]`; returns the rebuilt parts of the node, the underflow flag
of the child, and the index `i` of the child descended into. -/
def delWalk : BNode → List (String × BNode) → String →
    (BNode × List (String × BNode)) × Bool × Nat
  | c, [], k =>
    let p := delNode c k
    ((p.1, []), p.2, 0)
  | c, (s, c1) :: rest, k =>
    if k ≥ s then
      let w := delWalk c1 rest k
      ((c, (s, w.1.1) :: w.1.2), w.2.1, w.2.2 + 1)
    else
      let p := delNode c k
      ((p.1, (s, c1) :: rest), p.2, 0)
termination_by c seps _ => sizeOf c + sizeOf seps

end

/-- `(*BPlusTree).Delete` (bplustree.go lines 180-202): a leaf root deletes
directly and an emptied root is re-initialised to an empty leaf; otherwise
delete recursively, and if the root underflowed to zero keys, its sole
child (if any) becomes the new root. -/
def BPlusTree.Delete (t : BPlusTree) (key : String) : BPlusTree :=
  match t.root with
  | .leaf es =>
    let p := delFromLeaf es key
    if p.1.length = 0 then NewBPlusTree else ⟨.leaf p.1⟩
  | .node c seps =>
    let r := delNode (.node c seps) key
    if r.2 ∧ (r.1.nodeKeys).length = 0 then
      match r.1.nodeChildren with
      | [c0] => ⟨c0⟩
      | [] => NewBPlusTree
      | _ => ⟨r.1⟩
    else ⟨r.1⟩

/-- The range filter of `RangeQuery` (bplustree.go line 388):
`(startKey == "" || k >= startKey) && (endKey == "" || k <= endKey)`. -/
def boundOk (startKey endKey k : String) : Bool :=
  (decide (startKey = "") || decide (k ≥ startKey)) &&
    (decide (endKey = "") || decide (k ≤ endKey))

/-- `(*BPlusTree).RangeQuery` (bplustree.go lines 375-395): descend to the
leftmost leaf, walk the leaf chain, and for every entry passing the bound
filter do `results[k] = node.values[i]` into a fresh map.  The chain walk
visits `toEntries t.root` in order (see `toEntries`); the result map is
embedded as an association list built by those writes. -/
def BPlusTree.RangeQuery (t : BPlusTree) (startKey endKey : String) : Smap String :=
  (toEntries t.root).foldl
    (fun m e => if boundOk startKey endKey e.1 then m.set e.1 e.2 else m) []

/-! ### Structural-invariant checkers for the B+ tree -/

/-- `ks` is strictly increasing. -/
def strictInc : List String → Bool
  | [] => true
  | [_] => true
  | a :: b :: r => decide (a < b) && strictInc (b :: r)

mutual

/-- Every node of the tree rooted here satisfies: keys strictly
increasing, at most `ORDER - 1` keys, and (when `isRoot = false`) at
least `MIN_KEYS` keys. -/
def nodesWF (isRoot : Bool) : BNode → Bool
  | .leaf es =>
    strictInc (es.map Prod.fst) && decide (es.length ≤ ORDER - 1) &&
      (isRoot || decide (es.length ≥ MIN_KEYS))
  | .node c seps =>
    strictInc (seps.map Prod.fst) && decide (seps.length ≤ ORDER - 1) &&
      (isRoot || decide (seps.length ≥ MIN_KEYS)) &&
      nodesWF false c && nodesWFSeps seps
termination_by n => sizeOf n

def nodesWFSeps : List (String × BNode) → Bool
  | [] => true
  | (_, c) :: rest => nodesWF false c && nodesWFSeps rest
termination_by seps => sizeOf seps

end

mutual

/-- Every non-root node of the tree rooted here holds at least
`MIN_KEYS` keys. -/
def minKeysOK (isRoot : Bool) : BNode → Bool
  | .leaf es => isRoot || decide (es.length ≥ MIN_KEYS)
  | .node c seps =>
    (isRoot || decide (seps.length ≥ MIN_KEYS)) &&
      minKeysOK false c && minKeysOKSeps seps
termination_by n => sizeOf n

def minKeysOKSeps : List (String × BNode) → Bool
  | [] => true
  | (_, c) :: rest => minKeysOK false c && minKeysOKSeps rest
termination_by seps => sizeOf seps

end

/-! ## Write-ahead log (`src/internal/db/wal.go`)

The log file is embedded as the list of its lines (each `Fprintf` of the
writers appends one `\n`-terminated record; the scanner of `Replay` reads
it back line by line). -/

/-- `strings.Fields` on the character list: split around maximal runs of
whitespace, accumulating the current word in reverse. -/
def fieldsAux : List Char → List Char → List String
  | [], acc => if acc.isEmpty then [] else [⟨acc.reverse⟩]
  | c :: cs, acc =>
    if c.isWhitespace then
      if acc.isEmpty then fieldsAux cs [] else ⟨acc.reverse⟩ :: fieldsAux cs []
    else fieldsAux cs (c :: acc)

/-- `strings.Fields line`. -/
def fields (s : String) : List String := fieldsAux s.data []

/-- `strings.ToUpper` restricted to ASCII (all WAL command words are
ASCII). -/
def asciiToUpper (s : String) : String :=
  ⟨s.data.map (fun c => if 'a' ≤ c ∧ c ≤ 'z' then Char.ofNat (c.toNat - 32) else c)⟩

/-- The line written by `(*WAL).Append` (wal.go lines 73-79):
`SET <table> <key> <value>` for autocommit (`txID = ""`), otherwise
`SET <txID> <table> <key> <value>`. -/
def walAppendLine (txID tableName key value : String) : String :=
  if txID = "" then "SET " ++ tableName ++ " " ++ key ++ " " ++ value
  else "SET " ++ txID ++ " " ++ tableName ++ " " ++ key ++ " " ++ value

/-- The line written by `(*WAL).Delete` (wal.go lines 82-88). -/
def walDeleteLine (txID tableName key : String) : String :=
  if txID = "" then "DELETE " ++ tableName ++ " " ++ key
  else "DELETE " ++ txID ++ " " ++ tableName ++ " " ++ key

/-- The line written by `(*WAL).DropTable` (wal.go lines 91-97). -/
def walDropTableLine (txID tableName : String) : String :=
  if txID = "" then "DROP TABLE " ++ tableName
  else "DROP TABLE " ++ txID ++ " " ++ tableName

/-- The line written by `(*WAL).BeginTx` (wal.go lines 100-102). -/
def walBeginTxLine (txID : String) : String := "BEGIN_TX " ++ txID

/-- The line written by `(*WAL).CommitTx` (wal.go lines 104-106). -/
def walCommitTxLine (txID : String) : String := "COMMIT_TX " ++ txID

/-- The line written by `(*WAL).RollbackTx` (wal.go lines 108-110). -/
def walRollbackTxLine (txID : String) : String := "ROLLBACK_TX " ++ txID

/-- One call against the WAL writer interface. -/
inductive WalCall : Type where
  | append (txID tableName key value : String) : WalCall
  | delete (txID tableName key : String) : WalCall
  | dropTable (txID tableName : String) : WalCall
  | beginTx (txID : String) : WalCall
  | commitTx (txID : String) : WalCall
  | rollbackTx (txID : String) : WalCall
deriving DecidableEq

/-- The log line a call appends. -/
def WalCall.line : WalCall → String
  | .append txID tableName key value => walAppendLine txID tableName key value
  | .delete txID tableName key => walDeleteLine txID tableName key
  | .dropTable txID tableName => walDropTableLine txID tableName
  | .beginTx txID => walBeginTxLine txID
  | .commitTx txID => walCommitTxLine txID
  | .rollbackTx txID => walRollbackTxLine txID

/-- The log produced by a sequence of writer calls. -/
def walLog (calls : List WalCall) : List String := calls.map WalCall.line

/-- The in-memory state of `(*WAL).Replay` (wal.go lines 123-126):
committed table contents plus the per-transaction buffers.  The Go value
types `map[string]string` / `map[string]struct{}` become `Smap String` /
`Smap Unit`. -/
structure RState where
  tablesData : Smap (Smap String)
  activeTxChanges : Smap (Smap (Smap String))
  activeTxDeletes : Smap (Smap (Smap Unit))
  activeTxDroppedTables : Smap (Smap Unit)

def RState.initial : RState := ⟨[], [], [], []⟩

/-- COMMIT_TX application, first block (wal.go lines 197-207): write every
buffered upsert of the transaction into `tablesData` (creating the table
entry if absent), table by table. -/
def applyTxChanges (td : Smap (Smap String)) (changes : Smap (Smap String)) :
    Smap (Smap String) :=
  changes.foldl
    (fun td p => td.set p.1 (p.2.foldl (fun m kv => m.set kv.1 kv.2) (td.getD p.1 [])))
    td

/-- COMMIT_TX application, second block (wal.go lines 208-217): apply the
buffered deletes of the transaction to every table that exists. -/
def applyTxDeletes (td : Smap (Smap String)) (dels : Smap (Smap Unit)) :
    Smap (Smap String) :=
  dels.foldl
    (fun td p =>
      match td.get? p.1 with
      | some m => td.set p.1 (p.2.foldl (fun m kv => m.erase kv.1) m)
      | none => td)
    td

/-- COMMIT_TX application, third block (wal.go lines 218-223): remove every
table the transaction buffered a drop for. -/
def applyTxDrops (td : Smap (Smap String)) (drops : Smap Unit) :
    Smap (Smap String) :=
  drops.foldl (fun td p => td.erase p.1) td

/-- One step of the `Replay` scan (wal.go lines 129-234): split the line
into fields, dispatch on the upper-cased first token, distinguishing the
transactional and autocommit record forms by field count.  Lines matching
no case are skipped. -/
def replayLine (st : RState) (line : String) : RState :=
  match fields line with
  | [] => st
  | cmd :: restTokens =>
    match asciiToUpper cmd, restTokens with
    | "SET", [txID, tableName, key, value] =>
      -- Transactional SET (5 fields): buffer under the transaction id.
      { st with
        activeTxChanges :=
          st.activeTxChanges.set txID
            (((st.activeTxChanges.getD txID []).set tableName
              (((st.activeTxChanges.getD txID []).getD tableName []).set key value))) }
    | "SET", [tableName, key, value] =>
      -- Autocommit SET (4 fields): apply immediately.
      { st with
        tablesData := st.tablesData.set tableName ((st.tablesData.getD tableName []).set key value) }
    | "DELETE", [txID, tableName, key] =>
      -- Transactional DELETE (4 fields): buffer under the transaction id.
      { st with
        activeTxDeletes :=
          st.activeTxDeletes.set txID
            (((st.activeTxDeletes.getD txID []).set tableName
              (((st.activeTxDeletes.getD txID []).getD tableName []).set key ()))) }
    | "DELETE", [tableName, key] =>
      -- Autocommit DELETE (3 fields): delete the key if the table exists.
      match st.tablesData.get? tableName with
      | some m => { st with tablesData := st.tablesData.set tableName (m.erase key) }
      | none => st
    | "DROP", [w, txID, tableName] =>
      -- `DROP TABLE <txID> <table>` (4 fields): buffer the drop.
      if asciiToUpper w = "TABLE" then
        { st with
          activeTxDroppedTables :=
            st.activeTxDroppedTables.set txID
              ((st.activeTxDroppedTables.getD txID []).set tableName ()) }
      else st
    | "DROP", [w, tableName] =>
      -- `DROP TABLE <table>` (3 fields): drop immediately.
      if asciiToUpper w = "TABLE" then
        { st with tablesData := st.tablesData.erase tableName }
      else st
    | "BEGIN_TX", _ => st
    | "COMMIT_TX", [txID] =>
      -- Apply the buffers of the transaction to the committed state in the
      -- order upserts, then deletes, then dropped tables, each buffer being
      -- discarded as it is applied.
      let st1 :=
        match st.activeTxChanges.get? txID with
        | some changes =>
          { st with
            tablesData := applyTxChanges st.tablesData changes
            activeTxChanges := st.activeTxChanges.erase txID }
        | none => st
      let st2 :=
        match st1.activeTxDeletes.get? txID with
        | some dels =>
          { st1 with
            tablesData := applyTxDeletes st1.tablesData dels
            activeTxDeletes := st1.activeTxDeletes.erase txID }
        | none => st1
      match st2.activeTxDroppedTables.get? txID with
      | some drops =>
        { st2 with
          tablesData := applyTxDrops st2.tablesData drops
          activeTxDroppedTables := st2.activeTxDroppedTables.erase txID }
      | none => st2
    | "ROLLBACK_TX", [txID] =>
      -- Discard the buffers of the transaction with no effect on tablesData.
      { st with
        activeTxChanges := st.activeTxChanges.erase txID
        activeTxDeletes := st.activeTxDeletes.erase txID
        activeTxDroppedTables := st.activeTxDroppedTables.erase txID }
    | _, _ => st

/-- The scan loop of `Replay` over the whole log. -/
def replayScan (lns : List String) : RState :=
  lns.foldl replayLine RState.initial

/-- The final conversion of `Replay` (wal.go lines 240-247): for every
table and every key/value pair, append the pair to the result slice for
that table.  A table whose map became empty contributes no entries and is
therefore absent from the result. -/
def replayResultOf (td : Smap (Smap String)) : Smap (List (String × String)) :=
  td.foldl
    (fun res p => p.2.foldl (fun res kv => res.set p.1 (res.getD p.1 [] ++ [kv])) res)
    []

/-- `(*WAL).Replay` on a log given as its list of lines. -/
def Replay (lns : List String) : Smap (List (String × String)) :=
  replayResultOf (replayScan lns).tablesData

/-! ## Missing tree methods used by the engine

`engine.go` calls `tree.Update(key, value)`, `tree.Insert` with a boolean
result and `tree.Delete` with a boolean result; the `bplustree.go` under
`src/` has none of these (its `Insert` and `Delete` return nothing and
there is no `Update`), so they are modelled from the spec. -/

mutual

/-- Modelled from the spec: `BPlusTree.Update` is absent from
`src/internal/db/bplustree.go`.  Per spec section 4.1/4.3 an update
overwrites the value of an existing key in place; the descent follows the
same `key >= keys[i]` routing as `Get`, and a missing key changes
nothing. -/
def updNode : BNode → String → String → BNode
  | .leaf es, k, v =>
    .leaf (es.map (fun e => if e.1 = k then (e.1, v) else e))
  | .node c seps, k, v =>
    let p := updWalk c seps k v
    .node p.1 p.2
termination_by n _ _ => sizeOf n

def updWalk : BNode → List (String × BNode) → String → String →
    BNode × List (String × BNode)
  | c, [], k, v => (updNode c k v, [])
  | c, (s, c1) :: rest, k, v =>
    if k ≥ s then
      let p := updWalk c1 rest k v
      (c, (s, p.1) :: p.2)
    else (updNode c k v, (s, c1) :: rest)
termination_by c seps _ _ => sizeOf c + sizeOf seps

end

/-- Modelled from the spec: in-place value overwrite of an existing key
(see `updNode`). -/
def BPlusTree.Update (t : BPlusTree) (key value : String) : BPlusTree :=
  ⟨updNode t.root key value⟩

/-- Modelled from the spec: the engine (engine.go line 272) calls `Insert`
for a boolean `didInsert`; spec section 4.3 gives autocommit INSERT pure
insert semantics — a key already present is skipped and not counted.
Insertion of a fresh key is the `Insert` of bplustree.go. -/
def BPlusTree.InsertB (t : BPlusTree) (key value : String) : BPlusTree × Bool :=
  if (t.Get key).isSome then (t, false) else (t.Insert key value, true)

/-- Modelled from the spec: `UPDATE modifies only keys that already
exist`; returns whether the key existed (engine.go line 355 branches on
it). -/
def BPlusTree.UpdateB (t : BPlusTree) (key value : String) : BPlusTree × Bool :=
  if (t.Get key).isSome then (t.Update key value, true) else (t, false)

/-- Modelled from the spec: `Delete(key) -> was-present : bool` (spec
section 4.1); the removal itself is the `Delete` of bplustree.go, and
presence is the `Get` of bplustree.go (both descend identically). -/
def BPlusTree.DeleteB (t : BPlusTree) (key : String) : BPlusTree × Bool :=
  (t.Delete key, (t.Get key).isSome)

/-! ## Storage engine / transaction coordinator (`src/internal/db/engine.go`)

Statements are embedded post-parse (the parser is out of scope of the
engine claims); `Execute` receives a `Stmt` where the Go `Execute`
receives the parsed `Statement`.  The WAL file handle becomes the list of
appended lines.  The fresh transaction id `fmt.Sprintf("tx_%d",
time.Now().UnixNano())` is modelled by a monotone counter `clock` carried
in the engine state.  `Commit`/`Rollback` set the overlay maps to `nil`;
since the engine re-makes them on `Begin` before any in-transaction read,
`nil` is embedded as the empty map. -/

inductive Stmt : Type where
  | insertStmt (table : String) (values : List (String × String)) : Stmt
  | selectStmt (table : String) (keys : List String) : Stmt
  | updateStmt (table : String) (values : List (String × String)) : Stmt
  | deleteStmt (table : String) (keys : List String) : Stmt
  | dropStmt (table : String) : Stmt
  | beginStmt : Stmt
  | commitStmt : Stmt
  | rollbackStmt : Stmt

/-- `StmtType()` of the statement variants. -/
def Stmt.stmtType : Stmt → String
  | .insertStmt _ _ => "INSERT"
  | .selectStmt _ _ => "SELECT"
  | .updateStmt _ _ => "UPDATE"
  | .deleteStmt _ _ => "DELETE"
  | .dropStmt _ => "DROP"
  | .beginStmt => "BEGIN"
  | .commitStmt => "COMMIT"
  | .rollbackStmt => "ROLLBACK"

/-- Statements an active transaction buffers (everything except the
transaction-control statements). -/
def Stmt.bufferable : Stmt → Bool
  | .beginStmt => false
  | .commitStmt => false
  | .rollbackStmt => false
  | _ => true

structure Engine where
  tables : Smap BPlusTree
  walLines : List String
  currentTxID : String
  txChanges : Smap (Smap String)
  txDeletes : Smap (Smap Unit)
  txDroppedTables : Smap Unit
  clock : Nat

/-- A single quote character, kept out of string literals. -/
def sq : String := ⟨[Char.ofNat 39]⟩

/-- `fmt.Sprintf` of a name between single quotes. -/
def q (s : String) : String := sq ++ s ++ sq

/-- Ascending insertion into a sorted list of strings. -/
def insString (x : String) : List String → List String
  | [] => [x]
  | y :: r => if x ≤ y then x :: y :: r else y :: insString x r

/-- `sort.Strings`: the ascending reordering of the list. -/
def sortStrings (l : List String) : List String := l.foldr insString []

/-- `strings.TrimRight(sb.String(), "\n")` of a string builder that wrote
one `\n`-terminated line per element: the lines joined by `\n`. -/
def joinLines (l : List String) : String := String.intercalate "\n" l

/-- `executeAutocommit` (engine.go lines 262-368). -/
def executeAutocommit (e : Engine) (stmt : Stmt) : Engine × String :=
  match stmt with
  | .insertStmt table values =>
    -- A missing table is created (and stored) before the inserts.
    let tree0 := e.tables.getD table NewBPlusTree
    let r := values.foldl
      (fun (acc : BPlusTree × Nat × List String) kv =>
        let p := acc.1.InsertB kv.1 kv.2
        if p.2 then (p.1, acc.2.1 + 1, acc.2.2 ++ [walAppendLine "" table kv.1 kv.2])
        else (p.1, acc.2.1, acc.2.2))
      (tree0, 0, [])
    let e' := { e with tables := e.tables.set table r.1, walLines := e.walLines ++ r.2.2 }
    if r.2.1 = 0 ∧ values.length > 0 then
      (e', "No new keys inserted (they might already exist)")
    else
      (e', "Inserted " ++ toString r.2.1 ++ " key(s) into table " ++ q table)
  | .selectStmt table keys =>
    match e.tables.get? table with
    | none => (e, "Table " ++ q table ++ " not found")
    | some tree =>
      if keys.length > 0 then
        let found := keys.filterMap (fun k => (tree.Get k).map (fun v => k ++ ": " ++ v))
        if found.isEmpty then (e, "No results") else (e, joinLines found)
      else
        let results := tree.RangeQuery "" ""
        if results.length = 0 then (e, "No results")
        else
          let ks := sortStrings (results.map Prod.fst)
          (e, joinLines (ks.map (fun k => k ++ ": " ++ results.getD k "")))
  | .deleteStmt table keys =>
    match e.tables.get? table with
    | none => (e, "Table " ++ q table ++ " not found")
    | some tree =>
      let r := keys.foldl
        (fun (acc : BPlusTree × Nat × List String) k =>
          let p := acc.1.DeleteB k
          if p.2 then (p.1, acc.2.1 + 1, acc.2.2 ++ [walDeleteLine "" table k])
          else (p.1, acc.2.1, acc.2.2))
        (tree, 0, [])
      let e' := { e with tables := e.tables.set table r.1, walLines := e.walLines ++ r.2.2 }
      if r.2.1 > 0 then
        (e', "Deleted " ++ toString r.2.1 ++ " key(s) from table " ++ q table)
      else
        (e', "No key(s) found to delete in table " ++ q table)
  | .dropStmt table =>
    match e.tables.get? table with
    | none => (e, "Table " ++ q table ++ " not found")
    | some _ =>
      ({ e with tables := e.tables.erase table,
                walLines := e.walLines ++ [walDropTableLine "" table] },
        "Table " ++ q table ++ " dropped")
  | .updateStmt table values =>
    match e.tables.get? table with
    | none => (e, "Table " ++ q table ++ " not found")
    | some tree =>
      let r := values.foldl
        (fun (acc : BPlusTree × Nat × List String) kv =>
          let p := acc.1.UpdateB kv.1 kv.2
          if p.2 then (p.1, acc.2.1 + 1, acc.2.2 ++ [walAppendLine "" table kv.1 kv.2])
          else (p.1, acc.2.1, acc.2.2))
        (tree, 0, [])
      let e' := { e with tables := e.tables.set table r.1, walLines := e.walLines ++ r.2.2 }
      if r.2.1 > 0 then
        (e', "Updated " ++ toString r.2.1 ++ " key(s) in table " ++ q table)
      else
        (e', "No keys found to update")
  | s => (e, "unsupported statement in autocommit mode: " ++ s.stmtType)

/-- The per-pair body of the in-transaction INSERT loop (engine.go lines
382-405): cancel a pending delete for the key, count the pair, and buffer
the upsert. -/
def insertTxStep (table : String) (acc : Engine × Nat) (kv : String × String) :
    Engine × Nat :=
  let a := acc.1
  let a1 :=
    match a.txDeletes.get? table with
    | some inner => { a with txDeletes := a.txDeletes.set table (inner.erase kv.1) }
    | none => a
  let existsInMain :=
    match a1.tables.get? table with
    | some tree => (tree.Get kv.1).isSome
    | none => false
  let existsInTxChanges := ((a1.txChanges.getD table []).get? kv.1).isSome
  let cnt :=
    if !existsInMain && !existsInTxChanges then acc.2 + 1
    else if existsInTxChanges then acc.2 + 1
    else if existsInMain then acc.2 + 1
    else acc.2
  let chg1 := a1.txChanges.set table ((a1.txChanges.getD table []).set kv.1 kv.2)
  ({ a1 with txChanges := chg1 }, cnt)

/-- The per-key body of the in-transaction DELETE loop (engine.go lines
494-511): if the key is visible (base or buffered), buffer the delete and
cancel a pending upsert. -/
def deleteTxStep (table : String) (acc : Engine × Nat) (k : String) : Engine × Nat :=
  let a := acc.1
  let existsInMain :=
    match a.tables.get? table with
    | some tree => (tree.Get k).isSome
    | none => false
  let existsInTxChanges := ((a.txChanges.getD table []).get? k).isSome
  if existsInMain || existsInTxChanges then
    let dels1 := a.txDeletes.set table ((a.txDeletes.getD table []).set k ())
    let a1 := { a with txDeletes := dels1 }
    let a2 :=
      if existsInTxChanges then
        { a1 with
          txChanges := a1.txChanges.set table ((a1.txChanges.getD table []).erase k) }
      else a1
    (a2, acc.2 + 1)
  else (a, acc.2)

/-- The per-pair body of the in-transaction UPDATE loop (engine.go lines
544-562): if the key is visible anywhere (base, buffered change or
buffered delete), cancel a pending delete and buffer the new value. -/
def updateTxStep (table : String) (acc : Engine × Nat) (kv : String × String) :
    Engine × Nat :=
  let a := acc.1
  let existsInMain :=
    match a.tables.get? table with
    | some tree => (tree.Get kv.1).isSome
    | none => false
  let existsInTxChanges := ((a.txChanges.getD table []).get? kv.1).isSome
  let existsInTxDeletes := ((a.txDeletes.getD table []).get? kv.1).isSome
  if existsInMain || existsInTxChanges || existsInTxDeletes then
    let a1 :=
      if existsInTxDeletes then
        { a with
          txDeletes := a.txDeletes.set table ((a.txDeletes.getD table []).erase kv.1) }
      else a
    let chg1 := a1.txChanges.set table ((a1.txChanges.getD table []).set kv.1 kv.2)
    ({ a1 with txChanges := chg1 }, acc.2 + 1)
  else (a, acc.2)

/-- `executeInTransaction` (engine.go lines 370-571).  No branch of it
writes to `e.tables` or to the WAL: reads merge the base index with the
overlay, writes only move keys between the overlay maps. -/
def executeInTransaction (e : Engine) (stmt : Stmt) : Engine × String :=
  match stmt with
  | .insertStmt table values =>
    if (e.txDroppedTables.get? table).isSome then
      (e, "Table " ++ q table ++
        " marked for drop within this transaction, cannot insert into it")
    else
      -- Make the per-table change map if absent (even for an empty values
      -- list), then buffer each pair, cancelling any pending delete.
      let e0 :=
        if (e.txChanges.get? table).isSome then e
        else { e with txChanges := e.txChanges.set table [] }
      let r := values.foldl (insertTxStep table) (e0, 0)
      if r.2 = 0 ∧ values.length > 0 then
        (r.1, "No new keys inserted or values updated (they might already exist with the same value)")
      else
        (r.1, "Buffered " ++ toString values.length ++
          " key(s) for insert/update into table " ++ q table)
  | .selectStmt table keys =>
    if (e.txDroppedTables.get? table).isSome then
      (e, "Table " ++ q table ++ " dropped within this transaction")
    else
      -- combinedData: base entries, minus pending deletes, plus pending
      -- changes flagged as in-transaction.
      let base : Smap (String × Bool) :=
        match e.tables.get? table with
        | some tree => (tree.RangeQuery "" "").foldl
            (fun (m : Smap (String × Bool)) kv => m.set kv.1 (kv.2, false)) []
        | none => []
      let afterDel :=
        match e.txDeletes.get? table with
        | some delKeys => delKeys.foldl (fun (m : Smap (String × Bool)) (p : String × Unit) => m.erase p.1) base
        | none => base
      let combinedData :=
        match e.txChanges.get? table with
        | some txKVs => txKVs.foldl (fun (m : Smap (String × Bool)) (kv : String × String) => m.set kv.1 (kv.2, true)) afterDel
        | none => afterDel
      let fmtEntry := fun (k : String) (entry : String × Bool) =>
        if entry.2 then k ++ ": [" ++ e.currentTxID ++ "] " ++ entry.1
        else k ++ ": " ++ entry.1
      if keys.length > 0 then
        let found := keys.filterMap
          (fun k => (combinedData.get? k).map (fun entry => fmtEntry k entry))
        if found.isEmpty then (e, "No results") else (e, joinLines found)
      else
        if combinedData.length = 0 then (e, "No results")
        else
          let ks := sortStrings (combinedData.map Prod.fst)
          (e, joinLines (ks.map (fun k => fmtEntry k (combinedData.getD k ("", false)))))
  | .deleteStmt table keys =>
    if (e.txDroppedTables.get? table).isSome then
      (e, "Table " ++ q table ++
        " marked for drop within this transaction, cannot delete from it")
    else if (e.tables.get? table).isNone ∧ (e.txChanges.get? table).isNone then
      (e, "Table " ++ q table ++ " not found")
    else
      let e0 :=
        if (e.txDeletes.get? table).isSome then e
        else { e with txDeletes := e.txDeletes.set table [] }
      let r := keys.foldl (deleteTxStep table) (e0, 0)
      if r.2 > 0 then
        (r.1, "Buffered " ++ toString r.2 ++ " key(s) for deletion from table " ++ q table)
      else
        (r.1, "No key(s) found to delete in table " ++ q table)
  | .dropStmt table =>
    if (e.tables.get? table).isNone ∧ (e.txChanges.get? table).isNone then
      (e, "Table " ++ q table ++ " not found")
    else
      ({ e with txDroppedTables := e.txDroppedTables.set table (),
                txChanges := e.txChanges.erase table,
                txDeletes := e.txDeletes.erase table },
        "Buffered DROP for table " ++ q table)
  | .updateStmt table values =>
    if (e.txDroppedTables.get? table).isSome then
      (e, "Table " ++ q table ++
        " marked for drop within this transaction, cannot update it")
    else if (e.tables.get? table).isNone ∧ (e.txChanges.get? table).isNone then
      (e, "Table " ++ q table ++ " not found")
    else
      let e0 :=
        if (e.txChanges.get? table).isSome then e
        else { e with txChanges := e.txChanges.set table [] }
      let r := values.foldl (updateTxStep table) (e0, 0)
      if r.2 > 0 then
        (r.1, "Buffered " ++ toString r.2 ++ " key(s) for update in table " ++ q table)
      else
        (r.1, "No keys found to update")
  | s => (e, "unsupported statement in transaction mode: " ++ s.stmtType)

/-- The COMMIT application of `Execute` (engine.go lines 199-230): dropped
tables are removed and logged first, then every buffered upsert is applied
(updating an existing key, inserting a fresh one, creating the table if
needed) and logged, then every buffered delete that hits is applied and
logged. -/
def applyCommit (e : Engine) (txID : String) : Engine :=
  let e1 := e.txDroppedTables.foldl
    (fun acc p =>
      { acc with tables := acc.tables.erase p.1,
                 walLines := acc.walLines ++ [walDropTableLine txID p.1] })
    e
  let e2 := e.txChanges.foldl
    (fun acc p =>
      let tree0 := acc.tables.getD p.1 NewBPlusTree
      let r := p.2.foldl
        (fun (t : BPlusTree × List String) kv =>
          let t' := if (t.1.Get kv.1).isSome then t.1.Update kv.1 kv.2
                    else t.1.Insert kv.1 kv.2
          (t', t.2 ++ [walAppendLine txID p.1 kv.1 kv.2]))
        (tree0, [])
      { acc with tables := acc.tables.set p.1 r.1, walLines := acc.walLines ++ r.2 })
    e1
  e.txDeletes.foldl
    (fun acc p =>
      match acc.tables.get? p.1 with
      | none => acc
      | some tree =>
        let r := p.2.foldl
          (fun (t : BPlusTree × List String) kv =>
            let d := t.1.DeleteB kv.1
            if d.2 then (d.1, t.2 ++ [walDeleteLine txID p.1 kv.1]) else (d.1, t.2))
          (tree, [])
        { acc with tables := acc.tables.set p.1 r.1, walLines := acc.walLines ++ r.2 })
    e2

/-- `(*Engine).Execute` (engine.go lines 169-260) after parsing: the
transaction-control statements are handled first, everything else goes to
the autocommit or the in-transaction path depending on whether a
transaction is active. -/
def Execute (e : Engine) (stmt : Stmt) : Engine × String :=
  match stmt with
  | .beginStmt =>
    if e.currentTxID ≠ "" then
      (e, "Error: A transaction is already active. Commit or rollback the current transaction first.")
    else
      let txID := "tx_" ++ toString e.clock
      ({ e with currentTxID := txID, txChanges := [], txDeletes := [],
                txDroppedTables := [],
                walLines := e.walLines ++ [walBeginTxLine txID],
                clock := e.clock + 1 },
        "Transaction started: " ++ txID)
  | .commitStmt =>
    if e.currentTxID = "" then (e, "Error: No active transaction to commit.")
    else
      let txID := e.currentTxID
      let e1 := applyCommit e txID
      ({ e1 with walLines := e1.walLines ++ [walCommitTxLine txID],
                 currentTxID := "", txChanges := [], txDeletes := [],
                 txDroppedTables := [] },
        "Transaction " ++ txID ++ " committed.")
  | .rollbackStmt =>
    if e.currentTxID = "" then (e, "Error: No active transaction to rollback.")
    else
      let txID := e.currentTxID
      ({ e with currentTxID := "", txChanges := [], txDeletes := [],
                txDroppedTables := [],
                walLines := e.walLines ++ [walRollbackTxLine txID] },
        "Transaction " ++ txID ++ " rolled back.")
  | s =>
    if e.currentTxID = "" then executeAutocommit e s else executeInTransaction e s

/-- Run a statement sequence, keeping each result string. -/
def runStmts (e : Engine) (l : List Stmt) : Engine × List String :=
  l.foldl (fun acc s => let r := Execute acc.1 s; (r.1, acc.2 ++ [r.2])) (e, [])

/-- An engine with no tables, an empty log and no active transaction. -/
def idleEngine : Engine := ⟨[], [], "", [], [], [], 0⟩

/-! ## Supporting lemmas -/

namespace Smap

theorem get?_set_self (m : Smap α) (k : String) (v : α) : (m.set k v).get? k = some v := by
  induction m with
  | nil => simp [set, get?, List.find?]
  | cons h t ih =>
    by_cases hk : h.1 = k
    · simp [set, hk, get?, List.find?]
    · cases h with
      | mk k0 v0 => simp_all [set, get?, List.find?, hk]

theorem get?_set_ne (m : Smap α) {k j : String} (v : α) (h : k ≠ j) :
    (m.set j v).get? k = m.get? k := by
  induction m with
  | nil => simp [set, get?, List.find?, Ne.symm h]
  | cons hd t ih =>
    cases hd with
    | mk k0 v0 =>
      by_cases hk : k0 = j
      · simp [set, hk, get?, List.find?, Ne.symm h]
      · by_cases hk2 : k0 = k <;> simp_all [set, get?, List.find?, hk, hk2]

theorem get?_erase_ne (m : Smap α) {k j : String} (h : k ≠ j) :
    (m.erase j).get? k = m.get? k := by
  induction m with
  | nil => simp [erase]
  | cons hd t ih =>
    cases hd with
    | mk k0 v0 =>
      by_cases hk : k0 = j
      · subst hk
        simp [erase, get?, List.find?, Ne.symm h]
      · by_cases hk2 : k0 = k <;> simp_all [erase, get?, List.find?, hk, hk2]

theorem erase_set_self (m : Smap α) (k : String) (v : α) :
    (m.set k v).erase k = m.erase k := by
  induction m with
  | nil => simp [set, erase]
  | cons hd t ih =>
    cases hd with
    | mk k0 v0 =>
      by_cases hk : k0 = k <;> simp_all [set, erase, hk]

theorem erase_set_ne (m : Smap α) {k j : String} (v : α) (h : j ≠ k) :
    (m.set j v).erase k = (m.erase k).set j v := by
  induction m with
  | nil => simp [set, erase, h]
  | cons hd t ih =>
    cases hd with
    | mk k0 v0 =>
      by_cases h1 : k0 = j
      · subst h1
        simp [set, erase, h, Ne.symm h]
      · by_cases h2 : k0 = k
        · subst h2
          simp [set, erase, h1, Ne.symm h]
        · simp_all [set, erase, h1, h2]

theorem erase_erase_comm (m : Smap α) (k j : String) :
    (m.erase k).erase j = (m.erase j).erase k := by
  by_cases hkj : k = j
  · subst hkj; rfl
  · induction m with
    | nil => simp [erase]
    | cons hd t ih =>
      cases hd with
      | mk k0 v0 =>
        by_cases h1 : k0 = k
        · subst h1; simp [erase, hkj, Ne.symm hkj]
        · by_cases h2 : k0 = j <;> simp_all [erase, h1, h2]

theorem get?_eq_none_of_not_mem {m : Smap α} {k : String}
    (h : k ∉ m.map Prod.fst) : m.get? k = none := by
  induction m with
  | nil => simp [get?]
  | cons hd t ih =>
    cases hd with
    | mk k0 v0 =>
      simp only [List.map_cons, List.mem_cons, not_or] at h
      simp only [get?, List.find?]
      rw [show (decide (k0 = k)) = false from by simp; exact fun hh => h.1 hh.symm]
      simpa [get?] using ih h.2

theorem get?_erase_self_of_nodup {m : Smap α} (hm : (m.map Prod.fst).Nodup) (k : String) :
    (m.erase k).get? k = none := by
  induction m with
  | nil => simp [erase, get?]
  | cons hd t ih =>
    cases hd with
    | mk k0 v0 =>
      simp only [List.map_cons, List.nodup_cons] at hm
      by_cases h1 : k0 = k
      · subst h1
        simp only [erase, if_pos rfl]
        exact get?_eq_none_of_not_mem hm.1
      · simp only [erase, if_neg h1, get?, List.find?]
        rw [show (decide (k0 = k)) = false from by simp [h1]]
        simpa [get?] using ih hm.2

end Smap

theorem txPrefix_ne_empty (s : String) : ("tx_" ++ s) ≠ "" := by
  intro h
  have h2 := congrArg String.length h
  rw [String.length_append] at h2
  have h3 : "tx_".length = 3 := rfl
  rw [h3] at h2
  simp at h2

theorem foldl_engine_preserve {β : Type} (f : (Engine × Nat) → β → (Engine × Nat))
    (hf : ∀ acc b, ((f acc b).1).tables = (acc.1).tables ∧
      ((f acc b).1).currentTxID = (acc.1).currentTxID) :
    ∀ (l : List β) (acc : Engine × Nat),
      ((l.foldl f acc).1).tables = (acc.1).tables ∧
      ((l.foldl f acc).1).currentTxID = (acc.1).currentTxID := by
  intro l
  induction l with
  | nil => intro acc; exact ⟨rfl, rfl⟩
  | cons b t ih =>
    intro acc
    have h1 := hf acc b
    have h2 := ih (f acc b)
    simp only [List.foldl_cons]
    exact ⟨h2.1.trans h1.1, h2.2.trans h1.2⟩

theorem insertTxStep_preserve (table : String) (acc : Engine × Nat) (kv : String × String) :
    ((insertTxStep table acc kv).1).tables = (acc.1).tables ∧
    ((insertTxStep table acc kv).1).currentTxID = (acc.1).currentTxID := by
  simp only [insertTxStep]
  split <;> exact ⟨rfl, rfl⟩

theorem deleteTxStep_preserve (table : String) (acc : Engine × Nat) (k : String) :
    ((deleteTxStep table acc k).1).tables = (acc.1).tables ∧
    ((deleteTxStep table acc k).1).currentTxID = (acc.1).currentTxID := by
  simp only [deleteTxStep]
  split
  · split <;> exact ⟨rfl, rfl⟩
  · exact ⟨rfl, rfl⟩

theorem updateTxStep_preserve (table : String) (acc : Engine × Nat) (kv : String × String) :
    ((updateTxStep table acc kv).1).tables = (acc.1).tables ∧
    ((updateTxStep table acc kv).1).currentTxID = (acc.1).currentTxID := by
  simp only [updateTxStep]
  split
  · split <;> exact ⟨rfl, rfl⟩
  · exact ⟨rfl, rfl⟩

/-- No in-transaction statement touches the live table map or the
transaction slot (engine.go lines 370-571: the buffered paths read
`e.tables` but never assign to it, and never touch `currentTxID`). -/
theorem execInTx_preserves (e : Engine) (s : Stmt) :
    ((executeInTransaction e s).1).tables = e.tables ∧
    ((executeInTransaction e s).1).currentTxID = e.currentTxID := by
  cases s with
  | insertStmt table values =>
    simp only [executeInTransaction]
    split
    · exact ⟨rfl, rfl⟩
    · have h := foldl_engine_preserve (insertTxStep table)
        (insertTxStep_preserve table) values
      split
      · split <;> simpa using h _
      · split <;> simpa using h _
  | selectStmt table keys =>
    simp only [executeInTransaction]
    split
    · exact ⟨rfl, rfl⟩
    · split <;> split <;> exact ⟨rfl, rfl⟩
  | deleteStmt table keys =>
    simp only [executeInTransaction]
    split
    · exact ⟨rfl, rfl⟩
    · split
      · exact ⟨rfl, rfl⟩
      · have h := foldl_engine_preserve (deleteTxStep table)
          (deleteTxStep_preserve table) keys
        split <;> split <;> simpa using h _
  | updateStmt table values =>
    simp only [executeInTransaction]
    split
    · exact ⟨rfl, rfl⟩
    · split
      · exact ⟨rfl, rfl⟩
      · have h := foldl_engine_preserve (updateTxStep table)
          (updateTxStep_preserve table) values
        split <;> split <;> simpa using h _
  | dropStmt table =>
    simp only [executeInTransaction]
    split <;> exact ⟨rfl, rfl⟩
  | beginStmt => exact ⟨rfl, rfl⟩
  | commitStmt => exact ⟨rfl, rfl⟩
  | rollbackStmt => exact ⟨rfl, rfl⟩

theorem Execute_inTx_eq (e : Engine) (s : Stmt) (hs : s.bufferable = true)
    (h : ¬e.currentTxID = "") : Execute e s = executeInTransaction e s := by
  cases s <;> simp_all [Execute, Stmt.bufferable]

theorem runStmts_fst_congr (l : List Stmt) :
    ∀ (acc1 acc2 : Engine × List String), acc1.1 = acc2.1 →
      ((l.foldl (fun acc s => let r := Execute acc.1 s; (r.1, acc.2 ++ [r.2])) acc1).1 =
       (l.foldl (fun acc s => let r := Execute acc.1 s; (r.1, acc.2 ++ [r.2])) acc2).1) := by
  induction l with
  | nil => intro a b h; exact h
  | cons s t ih =>
    intro a b h
    simp only [List.foldl_cons]
    exact ih _ _ (by simp [h])

/-! Parsing facts: `strings.Fields` recovers the exact tokens of a writer
line whose field values are non-empty and whitespace-free. -/

/-- A non-empty, whitespace-free field value (spec section 6: keys,
values, table names and transaction ids must not contain whitespace). -/
def wfStr (s : String) : Prop := s ≠ "" ∧ ∀ c ∈ s.data, c.isWhitespace = false

instance (s : String) : Decidable (wfStr s) := by
  unfold wfStr; infer_instance

theorem data_append (a b : String) : (a ++ b).data = a.data ++ b.data := rfl

theorem data_ne_nil {s : String} (h : s ≠ "") : s.data ≠ [] := by
  intro hd
  exact h (by cases s; simp_all)

theorem fieldsAux_nonws_front (w : List Char) :
    ∀ (acc r : List Char), (∀ c ∈ w, c.isWhitespace = false) →
      fieldsAux (w ++ r) acc = fieldsAux r (w.reverse ++ acc) := by
  induction w with
  | nil => intro acc r _; simp
  | cons c w2 ih =>
    intro acc r hw
    have hc : c.isWhitespace = false := hw c (List.mem_cons_self c w2)
    have h2 := ih (c :: acc) r (fun x hx => hw x (List.mem_cons_of_mem c hx))
    simp only [List.cons_append, fieldsAux, hc, Bool.false_eq_true, if_false]
    simp only [List.append_eq]
    rw [h2]
    simp

theorem fieldsAux_space (acc : List Char) (r : List Char) (h : acc ≠ []) :
    fieldsAux (' ' :: r) acc = ⟨acc.reverse⟩ :: fieldsAux r [] := by
  simp [fieldsAux, h]

theorem fieldsAux_final (acc : List Char) (h : acc ≠ []) :
    fieldsAux [] acc = [⟨acc.reverse⟩] := by
  simp [fieldsAux, h]

theorem fieldsAux_cons_word (w : String) (rest : List Char) (hw : wfStr w) :
    fieldsAux (w.data ++ ' ' :: rest) [] = w :: fieldsAux rest [] := by
  rw [fieldsAux_nonws_front w.data [] (' ' :: rest) hw.2, List.append_nil,
    fieldsAux_space w.data.reverse rest (by simpa using data_ne_nil hw.1)]
  simp

theorem fieldsAux_last_word (w : String) (hw : wfStr w) :
    fieldsAux w.data [] = [w] := by
  have h := fieldsAux_nonws_front w.data [] [] hw.2
  rw [List.append_nil] at h
  rw [h, List.append_nil, fieldsAux_final w.data.reverse
    (by simpa using data_ne_nil hw.1)]
  simp

theorem fields_append_auto (t k v : String) (ht : wfStr t) (hk : wfStr k) (hv : wfStr v) :
    fields (walAppendLine "" t k v) = ["SET", t, k, v] := by
  have hd : (walAppendLine "" t k v).data =
      "SET".data ++ ' ' :: (t.data ++ ' ' :: (k.data ++ ' ' :: v.data)) := by
    simp [walAppendLine, data_append]
  rw [fields, hd, fieldsAux_cons_word "SET" _ (by decide),
    fieldsAux_cons_word t _ ht, fieldsAux_cons_word k _ hk,
    fieldsAux_last_word v hv]

theorem fields_append_tx (tx t k v : String) (htx : wfStr tx) (ht : wfStr t)
    (hk : wfStr k) (hv : wfStr v) :
    fields (walAppendLine tx t k v) = ["SET", tx, t, k, v] := by
  have hd : (walAppendLine tx t k v).data =
      "SET".data ++ ' ' :: (tx.data ++ ' ' :: (t.data ++ ' ' :: (k.data ++ ' ' :: v.data))) := by
    simp [walAppendLine, htx.1, data_append]
  rw [fields, hd, fieldsAux_cons_word "SET" _ (by decide),
    fieldsAux_cons_word tx _ htx, fieldsAux_cons_word t _ ht,
    fieldsAux_cons_word k _ hk, fieldsAux_last_word v hv]

theorem fields_delete_auto (t k : String) (ht : wfStr t) (hk : wfStr k) :
    fields (walDeleteLine "" t k) = ["DELETE", t, k] := by
  have hd : (walDeleteLine "" t k).data =
      "DELETE".data ++ ' ' :: (t.data ++ ' ' :: k.data) := by
    simp [walDeleteLine, data_append]
  rw [fields, hd, fieldsAux_cons_word "DELETE" _ (by decide),
    fieldsAux_cons_word t _ ht, fieldsAux_last_word k hk]

theorem fields_delete_tx (tx t k : String) (htx : wfStr tx) (ht : wfStr t) (hk : wfStr k) :
    fields (walDeleteLine tx t k) = ["DELETE", tx, t, k] := by
  have hd : (walDeleteLine tx t k).data =
      "DELETE".data ++ ' ' :: (tx.data ++ ' ' :: (t.data ++ ' ' :: k.data)) := by
    simp [walDeleteLine, htx.1, data_append]
  rw [fields, hd, fieldsAux_cons_word "DELETE" _ (by decide),
    fieldsAux_cons_word tx _ htx, fieldsAux_cons_word t _ ht,
    fieldsAux_last_word k hk]

theorem fields_drop_auto (t : String) (ht : wfStr t) :
    fields (walDropTableLine "" t) = ["DROP", "TABLE", t] := by
  have hd : (walDropTableLine "" t).data =
      "DROP".data ++ ' ' :: ("TABLE".data ++ ' ' :: t.data) := by
    simp [walDropTableLine, data_append]
  rw [fields, hd, fieldsAux_cons_word "DROP" _ (by decide),
    fieldsAux_cons_word "TABLE" _ (by decide), fieldsAux_last_word t ht]

theorem fields_drop_tx (tx t : String) (htx : wfStr tx) (ht : wfStr t) :
    fields (walDropTableLine tx t) = ["DROP", "TABLE", tx, t] := by
  have hd : (walDropTableLine tx t).data =
      "DROP".data ++ ' ' :: ("TABLE".data ++ ' ' :: (tx.data ++ ' ' :: t.data)) := by
    simp [walDropTableLine, htx.1, data_append]
  rw [fields, hd, fieldsAux_cons_word "DROP" _ (by decide),
    fieldsAux_cons_word "TABLE" _ (by decide), fieldsAux_cons_word tx _ htx,
    fieldsAux_last_word t ht]

theorem fields_begin_tx (tx : String) (htx : wfStr tx) :
    fields (walBeginTxLine tx) = ["BEGIN_TX", tx] := by
  have hd : (walBeginTxLine tx).data = "BEGIN_TX".data ++ ' ' :: tx.data := by
    simp [walBeginTxLine, data_append]
  rw [fields, hd, fieldsAux_cons_word "BEGIN_TX" _ (by decide),
    fieldsAux_last_word tx htx]

theorem fields_commit_tx (tx : String) (htx : wfStr tx) :
    fields (walCommitTxLine tx) = ["COMMIT_TX", tx] := by
  have hd : (walCommitTxLine tx).data = "COMMIT_TX".data ++ ' ' :: tx.data := by
    simp [walCommitTxLine, data_append]
  rw [fields, hd, fieldsAux_cons_word "COMMIT_TX" _ (by decide),
    fieldsAux_last_word tx htx]

theorem fields_rollback_tx (tx : String) (htx : wfStr tx) :
    fields (walRollbackTxLine tx) = ["ROLLBACK_TX", tx] := by
  have hd : (walRollbackTxLine tx).data = "ROLLBACK_TX".data ++ ' ' :: tx.data := by
    simp [walRollbackTxLine, data_append]
  rw [fields, hd, fieldsAux_cons_word "ROLLBACK_TX" _ (by decide),
    fieldsAux_last_word tx htx]

theorem replayLine_append_auto (st : RState) (t k v : String)
    (ht : wfStr t) (hk : wfStr k) (hv : wfStr v) :
    replayLine st (walAppendLine "" t k v) =
      { st with tablesData := st.tablesData.set t ((st.tablesData.getD t []).set k v) } := by
  rw [replayLine, fields_append_auto t k v ht hk hv]
  rfl

theorem replayLine_append_tx (st : RState) (tx t k v : String)
    (htx : wfStr tx) (ht : wfStr t) (hk : wfStr k) (hv : wfStr v) :
    replayLine st (walAppendLine tx t k v) =
      { st with
        activeTxChanges :=
          st.activeTxChanges.set tx
            (((st.activeTxChanges.getD tx []).set t
              (((st.activeTxChanges.getD tx []).getD t []).set k v))) } := by
  rw [replayLine, fields_append_tx tx t k v htx ht hk hv]
  rfl

theorem replayLine_delete_auto (st : RState) (t k : String)
    (ht : wfStr t) (hk : wfStr k) :
    replayLine st (walDeleteLine "" t k) =
      (match st.tablesData.get? t with
       | some m => { st with tablesData := st.tablesData.set t (m.erase k) }
       | none => st) := by
  rw [replayLine, fields_delete_auto t k ht hk]
  rfl

theorem replayLine_delete_tx (st : RState) (tx t k : String)
    (htx : wfStr tx) (ht : wfStr t) (hk : wfStr k) :
    replayLine st (walDeleteLine tx t k) =
      { st with
        activeTxDeletes :=
          st.activeTxDeletes.set tx
            (((st.activeTxDeletes.getD tx []).set t
              (((st.activeTxDeletes.getD tx []).getD t []).set k ()))) } := by
  rw [replayLine, fields_delete_tx tx t k htx ht hk]
  rfl

theorem replayLine_drop_auto (st : RState) (t : String) (ht : wfStr t) :
    replayLine st (walDropTableLine "" t) =
      { st with tablesData := st.tablesData.erase t } := by
  rw [replayLine, fields_drop_auto t ht]
  rfl

theorem replayLine_drop_tx (st : RState) (tx t : String) (htx : wfStr tx) (ht : wfStr t) :
    replayLine st (walDropTableLine tx t) =
      { st with
        activeTxDroppedTables :=
          st.activeTxDroppedTables.set tx
            ((st.activeTxDroppedTables.getD tx []).set t ()) } := by
  rw [replayLine, fields_drop_tx tx t htx ht]
  rfl

theorem replayLine_begin_tx (st : RState) (tx : String) (htx : wfStr tx) :
    replayLine st (walBeginTxLine tx) = st := by
  rw [replayLine, fields_begin_tx tx htx]
  rfl

/-- The COMMIT_TX transition of `Replay`, record level. -/
def commitStepR (st : RState) (txID : String) : RState :=
  let st1 :=
    match st.activeTxChanges.get? txID with
    | some changes =>
      { st with
        tablesData := applyTxChanges st.tablesData changes
        activeTxChanges := st.activeTxChanges.erase txID }
    | none => st
  let st2 :=
    match st1.activeTxDeletes.get? txID with
    | some dels =>
      { st1 with
        tablesData := applyTxDeletes st1.tablesData dels
        activeTxDeletes := st1.activeTxDeletes.erase txID }
    | none => st1
  match st2.activeTxDroppedTables.get? txID with
  | some drops =>
    { st2 with
      tablesData := applyTxDrops st2.tablesData drops
      activeTxDroppedTables := st2.activeTxDroppedTables.erase txID }
  | none => st2

theorem replayLine_commit_tx (st : RState) (tx : String) (htx : wfStr tx) :
    replayLine st (walCommitTxLine tx) = commitStepR st tx := by
  rw [replayLine, fields_commit_tx tx htx]
  rfl

theorem replayLine_rollback_tx (st : RState) (tx : String) (htx : wfStr tx) :
    replayLine st (walRollbackTxLine tx) =
      { st with
        activeTxChanges := st.activeTxChanges.erase tx
        activeTxDeletes := st.activeTxDeletes.erase tx
        activeTxDroppedTables := st.activeTxDroppedTables.erase tx } := by
  rw [replayLine, fields_rollback_tx tx htx]
  rfl

/-- Well-formed writer call: all fields non-empty and whitespace-free,
except that the transaction id of a data record may be empty
(autocommit). -/
def WalCall.wf : WalCall → Prop
  | .append tx t k v => (tx = "" ∨ wfStr tx) ∧ wfStr t ∧ wfStr k ∧ wfStr v
  | .delete tx t k => (tx = "" ∨ wfStr tx) ∧ wfStr t ∧ wfStr k
  | .dropTable tx t => (tx = "" ∨ wfStr tx) ∧ wfStr t
  | .beginTx tx => wfStr tx
  | .commitTx tx => wfStr tx
  | .rollbackTx tx => wfStr tx

instance (c : WalCall) : Decidable c.wf := by
  cases c <;> (unfold WalCall.wf; infer_instance)

/-- Whether a call carries the transaction id `X`. -/
def WalCall.taggedBy (X : String) : WalCall → Bool
  | .append tx _ _ _ => tx == X
  | .delete tx _ _ => tx == X
  | .dropTable tx _ => tx == X
  | .beginTx tx => tx == X
  | .commitTx tx => tx == X
  | .rollbackTx tx => tx == X

/-- Relation between the replay state of a log and the replay state of
the same log with every record of transaction `X` removed: the committed
tables agree, and the per-transaction buffers agree away from `X`. -/
def InvX (X : String) (s1 s2 : RState) : Prop :=
  s1.tablesData = s2.tablesData ∧
  s1.activeTxChanges.erase X = s2.activeTxChanges.erase X ∧
  s1.activeTxDeletes.erase X = s2.activeTxDeletes.erase X ∧
  s1.activeTxDroppedTables.erase X = s2.activeTxDroppedTables.erase X

theorem InvX_get?_ne {X : String} {α : Type} {m1 m2 : Smap α}
    (h : m1.erase X = m2.erase X) {tx : String} (hne : tx ≠ X) :
    m1.get? tx = m2.get? tx := by
  rw [← Smap.get?_erase_ne m1 hne, h, Smap.get?_erase_ne m2 hne]

theorem InvX_set_ne {X : String} {α : Type} {m1 m2 : Smap α}
    (h : m1.erase X = m2.erase X) {tx : String} (hne : tx ≠ X) (v : α) :
    (m1.set tx v).erase X = (m2.set tx v).erase X := by
  rw [Smap.erase_set_ne m1 v (Ne.symm (fun hh => hne hh.symm)),
    Smap.erase_set_ne m2 v (Ne.symm (fun hh => hne hh.symm)), h]

theorem InvX_erase_ne {X : String} {α : Type} {m1 m2 : Smap α}
    (h : m1.erase X = m2.erase X) (tx : String) :
    (m1.erase tx).erase X = (m2.erase tx).erase X := by
  rw [Smap.erase_erase_comm m1 tx X, Smap.erase_erase_comm m2 tx X, h]

theorem commitStepR_chg (st : RState) (tx : String) :
    (commitStepR st tx).activeTxChanges =
      (match st.activeTxChanges.get? tx with
       | some _ => st.activeTxChanges.erase tx
       | none => st.activeTxChanges) := by
  unfold commitStepR
  cases st.activeTxChanges.get? tx <;>
    (dsimp only; cases st.activeTxDeletes.get? tx <;>
      (dsimp only; cases st.activeTxDroppedTables.get? tx <;> rfl))

theorem commitStepR_del (st : RState) (tx : String) :
    (commitStepR st tx).activeTxDeletes =
      (match st.activeTxDeletes.get? tx with
       | some _ => st.activeTxDeletes.erase tx
       | none => st.activeTxDeletes) := by
  unfold commitStepR
  cases st.activeTxChanges.get? tx <;>
    (dsimp only; cases st.activeTxDeletes.get? tx <;>
      (dsimp only; cases st.activeTxDroppedTables.get? tx <;> rfl))

theorem commitStepR_drop (st : RState) (tx : String) :
    (commitStepR st tx).activeTxDroppedTables =
      (match st.activeTxDroppedTables.get? tx with
       | some _ => st.activeTxDroppedTables.erase tx
       | none => st.activeTxDroppedTables) := by
  unfold commitStepR
  cases st.activeTxChanges.get? tx <;>
    (dsimp only; cases st.activeTxDeletes.get? tx <;>
      (dsimp only; cases st.activeTxDroppedTables.get? tx <;> rfl))

theorem commitStepR_td (st : RState) (tx : String) :
    (commitStepR st tx).tablesData =
      (match st.activeTxDroppedTables.get? tx with
       | some drops =>
         applyTxDrops
           (match st.activeTxDeletes.get? tx with
            | some dels =>
              applyTxDeletes
                (match st.activeTxChanges.get? tx with
                 | some changes => applyTxChanges st.tablesData changes
                 | none => st.tablesData) dels
            | none =>
              match st.activeTxChanges.get? tx with
              | some changes => applyTxChanges st.tablesData changes
              | none => st.tablesData) drops
       | none =>
         match st.activeTxDeletes.get? tx with
         | some dels =>
           applyTxDeletes
             (match st.activeTxChanges.get? tx with
              | some changes => applyTxChanges st.tablesData changes
              | none => st.tablesData) dels
         | none =>
           match st.activeTxChanges.get? tx with
           | some changes => applyTxChanges st.tablesData changes
           | none => st.tablesData) := by
  unfold commitStepR
  cases st.activeTxChanges.get? tx <;>
    (dsimp only; cases st.activeTxDeletes.get? tx <;>
      (dsimp only; cases st.activeTxDroppedTables.get? tx <;> rfl))

theorem commitStepR_InvX {X : String} (tx : String) (hne : tx ≠ X)
    {s1 s2 : RState} (h : InvX X s1 s2) :
    InvX X (commitStepR s1 tx) (commitStepR s2 tx) := by
  obtain ⟨htd, hchg, hdel, hdrop⟩ := h
  refine ⟨?_, ?_, ?_, ?_⟩
  · rw [commitStepR_td, commitStepR_td, htd,
      InvX_get?_ne hchg hne, InvX_get?_ne hdel hne, InvX_get?_ne hdrop hne]
  · rw [commitStepR_chg, commitStepR_chg, InvX_get?_ne hchg hne]
    cases s2.activeTxChanges.get? tx
    · exact hchg
    · exact InvX_erase_ne hchg tx
  · rw [commitStepR_del, commitStepR_del, InvX_get?_ne hdel hne]
    cases s2.activeTxDeletes.get? tx
    · exact hdel
    · exact InvX_erase_ne hdel tx
  · rw [commitStepR_drop, commitStepR_drop, InvX_get?_ne hdrop hne]
    cases s2.activeTxDroppedTables.get? tx
    · exact hdrop
    · exact InvX_erase_ne hdrop tx

theorem InvX_step_tagged (X : String) (c : WalCall) (hwf : c.wf)
    (htag : c.taggedBy X = true) (hX : wfStr X)
    (hc : c ≠ .commitTx X) (hr : c ≠ .rollbackTx X) (s1 s2 : RState)
    (h : InvX X s1 s2) : InvX X (replayLine s1 c.line) s2 := by
  obtain ⟨htd, hchg, hdel, hdrop⟩ := h
  cases c with
  | append tx t k v =>
    have htx : tx = X := by simpa [WalCall.taggedBy] using htag
    subst htx
    rw [WalCall.line, replayLine_append_tx s1 tx t k v hX hwf.2.1 hwf.2.2.1 hwf.2.2.2]
    exact ⟨htd, by rw [← hchg]; exact (Smap.erase_set_self _ _ _), hdel, hdrop⟩
  | delete tx t k =>
    have htx : tx = X := by simpa [WalCall.taggedBy] using htag
    subst htx
    rw [WalCall.line, replayLine_delete_tx s1 tx t k hX hwf.2.1 hwf.2.2]
    exact ⟨htd, hchg, by rw [← hdel]; exact (Smap.erase_set_self _ _ _), hdrop⟩
  | dropTable tx t =>
    have htx : tx = X := by simpa [WalCall.taggedBy] using htag
    subst htx
    rw [WalCall.line, replayLine_drop_tx s1 tx t hX hwf.2]
    exact ⟨htd, hchg, hdel, by rw [← hdrop]; exact (Smap.erase_set_self _ _ _)⟩
  | beginTx tx =>
    have htx : tx = X := by simpa [WalCall.taggedBy] using htag
    subst htx
    rw [WalCall.line, replayLine_begin_tx s1 tx hX]
    exact ⟨htd, hchg, hdel, hdrop⟩
  | commitTx tx =>
    have htx : tx = X := by simpa [WalCall.taggedBy] using htag
    exact absurd (by rw [htx]) hc
  | rollbackTx tx =>
    have htx : tx = X := by simpa [WalCall.taggedBy] using htag
    exact absurd (by rw [htx]) hr

theorem InvX_step_untagged (X : String) (c : WalCall) (hwf : c.wf)
    (htag : c.taggedBy X = false) (s1 s2 : RState)
    (h : InvX X s1 s2) : InvX X (replayLine s1 c.line) (replayLine s2 c.line) := by
  obtain ⟨htd, hchg, hdel, hdrop⟩ := h
  cases c with
  | append tx t k v =>
    rcases hwf.1 with htx | htx
    · subst htx
      rw [WalCall.line, replayLine_append_auto s1 t k v hwf.2.1 hwf.2.2.1 hwf.2.2.2,
        replayLine_append_auto s2 t k v hwf.2.1 hwf.2.2.1 hwf.2.2.2]
      exact ⟨by rw [htd], hchg, hdel, hdrop⟩
    · have hne : tx ≠ X := by simpa [WalCall.taggedBy] using htag
      rw [WalCall.line, replayLine_append_tx s1 tx t k v htx hwf.2.1 hwf.2.2.1 hwf.2.2.2,
        replayLine_append_tx s2 tx t k v htx hwf.2.1 hwf.2.2.1 hwf.2.2.2]
      refine ⟨htd, ?_, hdel, hdrop⟩
      rw [show s1.activeTxChanges.getD tx [] = s2.activeTxChanges.getD tx [] from by
        rw [Smap.getD, Smap.getD, InvX_get?_ne hchg hne]]
      exact InvX_set_ne hchg hne _
  | delete tx t k =>
    rcases hwf.1 with htx | htx
    · subst htx
      rw [WalCall.line, replayLine_delete_auto s1 t k hwf.2.1 hwf.2.2,
        replayLine_delete_auto s2 t k hwf.2.1 hwf.2.2, htd]
      cases s2.tablesData.get? t with
      | none => exact ⟨htd, hchg, hdel, hdrop⟩
      | some m => exact ⟨rfl, hchg, hdel, hdrop⟩
    · have hne : tx ≠ X := by simpa [WalCall.taggedBy] using htag
      rw [WalCall.line, replayLine_delete_tx s1 tx t k htx hwf.2.1 hwf.2.2,
        replayLine_delete_tx s2 tx t k htx hwf.2.1 hwf.2.2]
      refine ⟨htd, hchg, ?_, hdrop⟩
      rw [show s1.activeTxDeletes.getD tx [] = s2.activeTxDeletes.getD tx [] from by
        rw [Smap.getD, Smap.getD, InvX_get?_ne hdel hne]]
      exact InvX_set_ne hdel hne _
  | dropTable tx t =>
    rcases hwf.1 with htx | htx
    · subst htx
      rw [WalCall.line, replayLine_drop_auto s1 t hwf.2,
        replayLine_drop_auto s2 t hwf.2]
      exact ⟨by rw [htd], hchg, hdel, hdrop⟩
    · have hne : tx ≠ X := by simpa [WalCall.taggedBy] using htag
      rw [WalCall.line, replayLine_drop_tx s1 tx t htx hwf.2,
        replayLine_drop_tx s2 tx t htx hwf.2]
      refine ⟨htd, hchg, hdel, ?_⟩
      rw [show s1.activeTxDroppedTables.getD tx [] = s2.activeTxDroppedTables.getD tx [] from by
        rw [Smap.getD, Smap.getD, InvX_get?_ne hdrop hne]]
      exact InvX_set_ne hdrop hne _
  | beginTx tx =>
    rw [WalCall.line, replayLine_begin_tx s1 tx hwf, replayLine_begin_tx s2 tx hwf]
    exact ⟨htd, hchg, hdel, hdrop⟩
  | commitTx tx =>
    have hne : tx ≠ X := by simpa [WalCall.taggedBy] using htag
    rw [WalCall.line, replayLine_commit_tx s1 tx hwf, replayLine_commit_tx s2 tx hwf]
    exact commitStepR_InvX tx hne ⟨htd, hchg, hdel, hdrop⟩
  | rollbackTx tx =>
    have hne : tx ≠ X := by simpa [WalCall.taggedBy] using htag
    rw [WalCall.line, replayLine_rollback_tx s1 tx hwf, replayLine_rollback_tx s2 tx hwf]
    exact ⟨htd, InvX_erase_ne hchg tx, InvX_erase_ne hdel tx, InvX_erase_ne hdrop tx⟩

theorem replayScan_filter_InvX (X : String) (hX : wfStr X) :
    ∀ (calls : List WalCall), (∀ c ∈ calls, c.wf) →
      (WalCall.commitTx X ∉ calls) → (WalCall.rollbackTx X ∉ calls) →
      ∀ s1 s2, InvX X s1 s2 →
        InvX X ((walLog calls).foldl replayLine s1)
          ((walLog (calls.filter (fun c => !c.taggedBy X))).foldl replayLine s2) := by
  intro calls
  induction calls with
  | nil => intro _ _ _ s1 s2 h; exact h
  | cons c rest ih =>
    intro hwf hnc hnr s1 s2 h
    have hcwf := hwf c (List.mem_cons_self c rest)
    have hrest := fun x hx => hwf x (List.mem_cons_of_mem c hx)
    have hnc2 : WalCall.commitTx X ∉ rest := fun hx => hnc (List.mem_cons_of_mem c hx)
    have hnr2 : WalCall.rollbackTx X ∉ rest := fun hx => hnr (List.mem_cons_of_mem c hx)
    by_cases htag : c.taggedBy X = true
    · have hstep := InvX_step_tagged X c hcwf htag hX
        (fun he => hnc (he ▸ List.mem_cons_self c rest))
        (fun he => hnr (he ▸ List.mem_cons_self c rest)) s1 s2 h
      simp only [walLog, List.filter_cons, htag, Bool.not_true, List.map_cons,
        List.foldl_cons]
      exact ih hrest hnc2 hnr2 _ _ hstep
    · have htagf : c.taggedBy X = false := by simpa using htag
      have hstep := InvX_step_untagged X c hcwf htagf s1 s2 h
      simp only [walLog, List.filter_cons, htagf, Bool.not_false, List.map_cons,
        List.foldl_cons]
      exact ih hrest hnc2 hnr2 _ _ hstep

/-! ### RangeQuery over arbitrary insertion orders (claim C6)

List-level facts about the leaf insertion scan `leafIns`, plus unfolding
equations for `insertNode`/`insertWalk` and the two split helpers. -/

theorem leafIns_ne_nil (es : List (String × String)) (k v : String) :
    leafIns es k v ≠ [] := by
  match es with
  | [] => simp [leafIns]
  | (k0, v0) :: es2 =>
    by_cases h1 : k0 < k
    · simp [leafIns, h1]
    · by_cases h2 : k0 = k <;> simp [leafIns, h1, h2]

theorem leafIns_mem (es : List (String × String)) (k v : String)
    (hf : ∀ e ∈ es, e.1 ≠ k) (a : String × String) :
    a ∈ leafIns es k v ↔ a = (k, v) ∨ a ∈ es := by
  induction es with
  | nil => simp [leafIns]
  | cons e es2 ih =>
    obtain ⟨k0, v0⟩ := e
    have hk0 : k0 ≠ k := hf (k0, v0) (List.mem_cons_self _ _)
    by_cases h1 : k0 < k
    · rw [leafIns, if_pos h1]
      rw [List.mem_cons, ih (fun x hx => hf x (List.mem_cons_of_mem _ hx)),
        List.mem_cons]
      tauto
    · rw [leafIns, if_neg h1, if_neg hk0]
      simp only [List.mem_cons]

theorem leafIns_sorted (es : List (String × String)) (k v : String)
    (hs : es.Pairwise (fun a b => a.1 < b.1)) (hf : ∀ e ∈ es, e.1 ≠ k) :
    (leafIns es k v).Pairwise (fun a b => a.1 < b.1) := by
  induction es with
  | nil => simp [leafIns]
  | cons e es2 ih =>
    obtain ⟨k0, v0⟩ := e
    have hk0 : k0 ≠ k := hf (k0, v0) (List.mem_cons_self _ _)
    have hs0 := hs
    rw [List.pairwise_cons] at hs
    by_cases h1 : k0 < k
    · rw [leafIns, if_pos h1]
      rw [List.pairwise_cons]
      refine ⟨?_, ih hs.2 (fun x hx => hf x (List.mem_cons_of_mem _ hx))⟩
      intro b hb
      rcases (leafIns_mem es2 k v
        (fun x hx => hf x (List.mem_cons_of_mem _ hx)) b).1 hb with hb2 | hb2
      · rw [hb2]; exact h1
      · exact hs.1 b hb2
    · have hlt : k < k0 := by
        rcases lt_trichotomy k0 k with h | h | h
        · exact absurd h h1
        · exact absurd h hk0
        · exact h
      rw [leafIns, if_neg h1, if_neg hk0]
      rw [List.pairwise_cons]
      refine ⟨?_, hs0⟩
      intro b hb
      rcases List.mem_cons.1 hb with hb2 | hb2
      · rw [hb2]; exact hlt
      · exact lt_trans hlt (hs.1 b hb2)

theorem leafIns_cons_lt (k0 v0 k v : String) (t : List (String × String))
    (h : k0 < k) : leafIns ((k0, v0) :: t) k v = (k0, v0) :: leafIns t k v := by
  rw [leafIns, if_pos h]

theorem leafIns_append_left (es1 es2 : List (String × String)) (k v : String)
    (h : ∀ e ∈ es1, e.1 < k) :
    leafIns (es1 ++ es2) k v = es1 ++ leafIns es2 k v := by
  induction es1 with
  | nil => simp
  | cons e es1' ih =>
    obtain ⟨k0, v0⟩ := e
    have h0 : k0 < k := h (k0, v0) (List.mem_cons_self _ _)
    rw [List.cons_append, leafIns_cons_lt _ _ _ _ _ h0,
      ih (fun x hx => h x (List.mem_cons_of_mem _ hx)), List.cons_append]

theorem leafIns_append_right (es1 es2 : List (String × String)) (k v : String)
    (h : ∀ e ∈ es2, k < e.1) :
    leafIns (es1 ++ es2) k v = leafIns es1 k v ++ es2 := by
  induction es1 with
  | nil =>
    match es2 with
    | [] => simp [leafIns]
    | (k0, v0) :: r =>
      have h0 : k < k0 := h (k0, v0) (List.mem_cons_self _ _)
      have h1 : ¬ k0 < k := not_lt_of_gt h0
      have h2 : k0 ≠ k := ne_of_gt h0
      simp [leafIns, h1, h2]
  | cons e es1' ih =>
    obtain ⟨k0, v0⟩ := e
    by_cases h1 : k0 < k
    · rw [List.cons_append, leafIns_cons_lt _ _ _ _ _ h1, ih,
        leafIns_cons_lt _ _ _ _ _ h1, List.cons_append]
    · by_cases h2 : k0 = k
      · rw [List.cons_append, leafIns, if_neg h1, if_pos h2,
          leafIns, if_neg h1, if_pos h2, List.cons_append]
      · rw [List.cons_append, leafIns, if_neg h1, if_neg h2,
          leafIns, if_neg h1, if_neg h2, List.cons_append, List.cons_append]

theorem head?_append_left (l1 l2 : List (String × String)) (h : l1 ≠ []) :
    (l1 ++ l2).head? = l1.head? := by
  match l1 with
  | [] => exact absurd rfl h
  | a :: t => rfl

theorem toEntriesSeps_append (l1 l2 : List (String × BNode)) :
    toEntriesSeps (l1 ++ l2) = toEntriesSeps l1 ++ toEntriesSeps l2 := by
  induction l1 with
  | nil => simp [toEntriesSeps]
  | cons e l1' ih =>
    obtain ⟨s, c⟩ := e
    rw [List.cons_append, toEntriesSeps, toEntriesSeps, ih, List.append_assoc]

theorem insertNode_leaf_eq (es : List (String × String)) (k v : String) :
    insertNode (.leaf es) k v =
      if (leafIns es k v).length < ORDER then (.leaf (leafIns es k v), none)
      else splitLeafList (leafIns es k v) := by
  rw [insertNode]

theorem insertNode_node_eq (c : BNode) (seps : List (String × BNode))
    (k v : String) :
    insertNode (.node c seps) k v =
      if (insertWalk c seps k v).2.length < ORDER then
        (.node (insertWalk c seps k v).1 (insertWalk c seps k v).2, none)
      else splitInternalList (insertWalk c seps k v).1 (insertWalk c seps k v).2 := by
  rw [insertNode]

theorem insertWalk_nil_eq (c : BNode) (k v : String) :
    insertWalk c [] k v =
      match insertNode c k v with
      | (c', none) => (c', [])
      | (c', some (m, sib)) => (c', [(m, sib)]) := by
  rw [insertWalk]

theorem insertWalk_cons_gt (c c1 : BNode) (s : String)
    (rest : List (String × BNode)) (k v : String) (h : k > s) :
    insertWalk c ((s, c1) :: rest) k v =
      (c, (s, (insertWalk c1 rest k v).1) :: (insertWalk c1 rest k v).2) := by
  rw [insertWalk, if_pos h]

theorem insertWalk_cons_le (c c1 : BNode) (s : String)
    (rest : List (String × BNode)) (k v : String) (h : ¬ k > s) :
    insertWalk c ((s, c1) :: rest) k v =
      match insertNode c k v with
      | (c', none) => (c', (s, c1) :: rest)
      | (c', some (m, sib)) => (c', (m, sib) :: (s, c1) :: rest) := by
    rw [insertWalk, if_neg h]

theorem splitLeafList_eq (es : List (String × String)) (rk rv : String)
    (r : List (String × String)) (h : es.drop (es.length / 2) = (rk, rv) :: r) :
    splitLeafList es =
      (.leaf (es.take (es.length / 2)), some (rk, .leaf ((rk, rv) :: r))) := by
  rw [splitLeafList, h]

theorem splitInternalList_eq (c : BNode) (seps : List (String × BNode))
    (pk : String) (pc : BNode) (r : List (String × BNode))
    (h : seps.drop (seps.length / 2) = (pk, pc) :: r) :
    splitInternalList c seps =
      (.node c (seps.take (seps.length / 2)), some (pk, .node pc r)) := by
  rw [splitInternalList, h]

/-- First key of the in-order entry sequence of a subtree. -/
def firstKey (n : BNode) : Option String := (toEntries n).head?.map Prod.fst

/-- Inclusive lower bound on a key; `none` is unbounded below. -/
def lbO : Option String → String → Prop
  | none, _ => True
  | some l, k => l ≤ k

/-- Strict lower bound on a key; `none` is unbounded below. -/
def lbS : Option String → String → Prop
  | none, _ => True
  | some l, k => l < k

/-- Strict upper bound on a key; `none` is unbounded above. -/
def ubO : Option String → String → Prop
  | none, _ => True
  | some h, k => k < h

theorem lbO_trans (lo : Option String) (s k : String) (h1 : lbO lo s)
    (h2 : s ≤ k) : lbO lo k := by
  match lo with
  | none => trivial
  | some l => exact le_trans h1 h2

theorem lbS_lbO (lo : Option String) (k : String) (h : lbS lo k) : lbO lo k := by
  match lo with
  | none => trivial
  | some l => exact le_of_lt h

theorem ubO_trans (hi : Option String) (s k : String) (h1 : k < s)
    (h2 : ubO hi s) : ubO hi k := by
  match hi with
  | none => trivial
  | some h => exact lt_trans h1 h2

mutual

/-- Search-tree invariant of a subtree within the half-open key window
`[lo, hi)` (an absent bound is unbounded).  A leaf holds strictly sorted
entries inside the window; an internal node has a non-empty first child
and a walk invariant over its (separator, child) pairs. -/
def searchInv : Option String → Option String → BNode → Prop
  | lo, hi, .leaf es =>
    es.Pairwise (fun a b => a.1 < b.1) ∧ ∀ e ∈ es, lbO lo e.1 ∧ ubO hi e.1
  | lo, hi, .node c seps => toEntries c ≠ [] ∧ searchInvW lo hi c seps
termination_by _ _ n => sizeOf n

/-- Walk invariant for an internal node decomposed as a first child plus
(separator, child) pairs: the first child lives below the first separator,
each separator lies in the window and equals the first key of its child,
and the remaining pairs satisfy the walk invariant above that separator. -/
def searchInvW : Option String → Option String → BNode → List (String × BNode) → Prop
  | lo, hi, c, [] => searchInv lo hi c
  | lo, hi, c, (s, c1) :: rest =>
    searchInv lo (some s) c ∧ lbO lo s ∧ firstKey c1 = some s ∧
      searchInvW (some s) hi c1 rest
termination_by _ _ c seps => sizeOf c + sizeOf seps

end

theorem firstKey_mem (n : BNode) (m : String) (h : firstKey n = some m) :
    ∃ w, (toEntries n).head? = some (m, w) ∧ (m, w) ∈ toEntries n := by
  match he : toEntries n with
  | [] => rw [firstKey, he] at h; simp at h
  | (a, b) :: t =>
    rw [firstKey, he] at h
    simp only [List.head?_cons, Option.map_some] at h
    refine ⟨b, ?_, ?_⟩
    · rw [List.head?_cons]
      have : a = m := by injection h
      rw [this]
    · have : a = m := by injection h
      rw [← this]; exact List.mem_cons_self _ _

theorem firstKey_ne_nil (n : BNode) (m : String) (h : firstKey n = some m) :
    toEntries n ≠ [] := by
  intro hnil
  rw [firstKey, hnil] at h
  simp at h

mutual

/-- Under the search invariant the in-order entry sequence is strictly
sorted and every key lies in the window. -/
theorem searchInv_entries (lo hi : Option String) (n : BNode)
    (h : searchInv lo hi n) :
    (toEntries n).Pairwise (fun a b => a.1 < b.1) ∧
      ∀ e ∈ toEntries n, lbO lo e.1 ∧ ubO hi e.1 := by
  match n with
  | .leaf es =>
    rw [searchInv] at h
    rw [toEntries]
    exact h
  | .node c seps =>
    rw [searchInv] at h
    rw [toEntries]
    exact searchInvW_entries lo hi c seps h.2
termination_by sizeOf n

theorem searchInvW_entries (lo hi : Option String) (c : BNode)
    (seps : List (String × BNode)) (h : searchInvW lo hi c seps) :
    (toEntries c ++ toEntriesSeps seps).Pairwise (fun a b => a.1 < b.1) ∧
      ∀ e ∈ toEntries c ++ toEntriesSeps seps, lbO lo e.1 ∧ ubO hi e.1 := by
  match seps with
  | [] =>
    rw [searchInvW] at h
    have := searchInv_entries lo hi c h
    rw [toEntriesSeps, List.append_nil]
    exact this
  | (s, c1) :: rest =>
    rw [searchInvW] at h
    obtain ⟨hc, hls, hfk, hrest⟩ := h
    have h1 := searchInv_entries lo (some s) c hc
    have h2 := searchInvW_entries (some s) hi c1 rest hrest
    rw [toEntriesSeps]
    constructor
    · rw [List.pairwise_append]
      refine ⟨h1.1, h2.1, ?_⟩
      intro a ha b hb
      have hua : a.1 < s := (h1.2 a ha).2
      have hlb : s ≤ b.1 := (h2.2 b hb).1
      exact lt_of_lt_of_le hua hlb
    · obtain ⟨w, _, hmem⟩ := firstKey_mem c1 s hfk
      have hubs : ubO hi s :=
        (h2.2 (s, w) (List.mem_append_left _ hmem)).2
      intro e he
      rcases List.mem_append.1 he with he1 | he2
      · exact ⟨(h1.2 e he1).1, ubO_trans hi s e.1 (h1.2 e he1).2 hubs⟩
      · exact ⟨lbO_trans lo s e.1 hls (h2.2 e he2).1, (h2.2 e he2).2⟩
termination_by sizeOf c + sizeOf seps

end

/-- Splitting the walk invariant at a separator occurring in the pair
list: the prefix satisfies the walk invariant below that separator, the
separator is the first key of its child and respects the lower window
bound, and the suffix satisfies the walk invariant above it. -/
theorem searchInvW_split (l1 : List (String × BNode)) :
    ∀ (lo hi : Option String) (c : BNode) (pk : String) (pc : BNode)
      (l2 : List (String × BNode)),
      searchInvW lo hi c (l1 ++ (pk, pc) :: l2) →
      searchInvW lo (some pk) c l1 ∧ lbO lo pk ∧ firstKey pc = some pk ∧
        searchInvW (some pk) hi pc l2 := by
  induction l1 with
  | nil =>
    intro lo hi c pk pc l2 h
    rw [List.nil_append, searchInvW] at h
    obtain ⟨hc, hls, hfk, hrest⟩ := h
    exact ⟨by rw [searchInvW]; exact hc, hls, hfk, hrest⟩
  | cons e l1' ih =>
    intro lo hi c pk pc l2 h
    obtain ⟨s1, d1⟩ := e
    rw [List.cons_append, searchInvW] at h
    obtain ⟨hc, hls, hfk1, htail⟩ := h
    obtain ⟨hW1, hlb1, hfk2, hW2⟩ := ih (some s1) hi d1 pk pc l2 htail
    refine ⟨?_, lbO_trans lo s1 pk hls hlb1, hfk2, hW2⟩
    rw [searchInvW]
    exact ⟨hc, hls, hfk1, hW1⟩

/-- Post-state of a non-root insertion step: either no split, with the
invariant kept on the same window and the entries equal to the sorted
insertion into the old entries, or a split into a left node, a promoted
key and a right sibling whose concatenated entries are that insertion. -/
def insOk (lo hi : Option String) (old : List (String × String))
    (k v : String) : BNode × Option (String × BNode) → Prop
  | (n', none) => searchInv lo hi n' ∧ toEntries n' = leafIns old k v
  | (n', some (m, sib)) =>
    searchInv lo (some m) n' ∧ searchInv (some m) hi sib ∧ lbO lo m ∧
      firstKey sib = some m ∧ toEntries n' ≠ [] ∧
      toEntries n' ++ toEntries sib = leafIns old k v

/-- Post-state of the internal-node walk step: walk invariant kept, the
first child stays non-empty, and the concatenated entries equal the
sorted insertion into the old entries. -/
def walkOk (lo hi : Option String) (old : List (String × String))
    (k v : String) : BNode × List (String × BNode) → Prop
  | (c', seps') => searchInvW lo hi c' seps' ∧ toEntries c' ≠ [] ∧
      toEntries c' ++ toEntriesSeps seps' = leafIns old k v

theorem insertWalk_nil_none (c c' : BNode) (k v : String)
    (h : insertNode c k v = (c', none)) : insertWalk c [] k v = (c', []) := by
  rw [insertWalk_nil_eq, h]

theorem insertWalk_nil_some (c c' sib : BNode) (m k v : String)
    (h : insertNode c k v = (c', some (m, sib))) :
    insertWalk c [] k v = (c', [(m, sib)]) := by
  rw [insertWalk_nil_eq, h]

theorem insertWalk_cons_le_none (c c1 c' : BNode) (s : String)
    (rest : List (String × BNode)) (k v : String) (h1 : ¬ k > s)
    (h2 : insertNode c k v = (c', none)) :
    insertWalk c ((s, c1) :: rest) k v = (c', (s, c1) :: rest) := by
  rw [insertWalk_cons_le c c1 s rest k v h1, h2]

theorem insertWalk_cons_le_some (c c1 c' sib : BNode) (s m : String)
    (rest : List (String × BNode)) (k v : String) (h1 : ¬ k > s)
    (h2 : insertNode c k v = (c', some (m, sib))) :
    insertWalk c ((s, c1) :: rest) k v = (c', (m, sib) :: (s, c1) :: rest) := by
  rw [insertWalk_cons_le c c1 s rest k v h1, h2]

mutual

/-- Inserting a fresh in-window key into a subtree satisfying the search
invariant yields the post-state described by `insOk`: the invariant is
kept and the in-order entries become the sorted insertion of the new
pair. -/
theorem insertNode_ok (lo hi : Option String) (n : BNode) (k v : String)
    (hinv : searchInv lo hi n) (hlo : lbS lo k) (hhi : ubO hi k)
    (hf : ∀ e ∈ toEntries n, e.1 ≠ k) :
    insOk lo hi (toEntries n) k v (insertNode n k v) := by
  match n with
  | .leaf es =>
    rw [searchInv] at hinv
    obtain ⟨hs, hb⟩ := hinv
    rw [toEntries] at hf ⊢
    rw [insertNode_leaf_eq]
    have hsrt := leafIns_sorted es k v hs hf
    have hmm := leafIns_mem es k v hf
    have hbb : ∀ e ∈ leafIns es k v, lbO lo e.1 ∧ ubO hi e.1 := by
      intro e he
      rcases (hmm e).1 he with he2 | he2
      · rw [he2]; exact ⟨lbS_lbO lo k hlo, hhi⟩
      · exact hb e he2
    by_cases hlen : (leafIns es k v).length < ORDER
    · rw [if_pos hlen]
      simp only [insOk]
      refine ⟨?_, by rw [toEntries]⟩
      rw [searchInv]
      exact ⟨hsrt, hbb⟩
    · have hORD : ORDER = 4 := rfl
      rw [hORD] at hlen
      have hdl := List.length_drop ((leafIns es k v).length / 2) (leafIns es k v)
      match hdrop : (leafIns es k v).drop ((leafIns es k v).length / 2) with
      | [] =>
        exfalso
        rw [hdrop] at hdl
        simp only [List.length_nil] at hdl
        omega
      | (rk, rv) :: r =>
        rw [if_neg (by omega), splitLeafList_eq (leafIns es k v) rk rv r hdrop]
        simp only [insOk]
        have hLR : (leafIns es k v).take ((leafIns es k v).length / 2) ++
            (rk, rv) :: r = leafIns es k v := by
          rw [← hdrop]
          exact List.take_append_drop _ _
        have hP : ((leafIns es k v).take ((leafIns es k v).length / 2) ++
            (rk, rv) :: r).Pairwise (fun a b => a.1 < b.1) := by
          rw [hLR]; exact hsrt
        rw [List.pairwise_append] at hP
        obtain ⟨hPL, hPR, hcross⟩ := hP
        have hLsub : ∀ e ∈ (leafIns es k v).take ((leafIns es k v).length / 2),
            e ∈ leafIns es k v := by
          intro e he
          rw [← hLR]; exact List.mem_append_left _ he
        have hRsub : ∀ e ∈ (rk, rv) :: r, e ∈ leafIns es k v := by
          intro e he
          rw [← hLR]; exact List.mem_append_right _ he
        refine ⟨?_, ?_, ?_, ?_, ?_, ?_⟩
        · rw [searchInv]
          refine ⟨hPL, ?_⟩
          intro e he
          exact ⟨(hbb e (hLsub e he)).1,
            hcross e he (rk, rv) (List.mem_cons_self _ _)⟩
        · rw [searchInv]
          refine ⟨hPR, ?_⟩
          intro e he
          refine ⟨?_, (hbb e (hRsub e he)).2⟩
          rcases List.mem_cons.1 he with he2 | he2
          · rw [he2]
            exact le_refl rk
          · rw [List.pairwise_cons] at hPR
            exact le_of_lt (hPR.1 e he2)
        · exact (hbb (rk, rv) (hRsub (rk, rv) (List.mem_cons_self _ _))).1
        · rw [firstKey, toEntries]
          rfl
        · rw [toEntries]
          have h0 : 0 < ((leafIns es k v).take
              ((leafIns es k v).length / 2)).length := by
            rw [List.length_take]
            omega
          exact List.ne_nil_of_length_pos h0
        · rw [toEntries, toEntries]
          exact hLR
  | .node c seps =>
    rw [searchInv] at hinv
    obtain ⟨hnec, hW⟩ := hinv
    rw [toEntries] at hf ⊢
    have hwalk := insertWalk_ok lo hi c seps k v hW hnec hlo hhi hf
    rw [insertNode_node_eq]
    rcases hp : insertWalk c seps k v with ⟨c2, seps2⟩
    rw [hp] at hwalk
    simp only [walkOk] at hwalk
    obtain ⟨hW2, hne2, heq2⟩ := hwalk
    simp only
    by_cases hlen : seps2.length < ORDER
    · rw [if_pos hlen]
      simp only [insOk]
      refine ⟨?_, by rw [toEntries]; exact heq2⟩
      rw [searchInv]
      exact ⟨hne2, hW2⟩
    · have hORD : ORDER = 4 := rfl
      rw [hORD] at hlen
      have hdl := List.length_drop (seps2.length / 2) seps2
      match hdrop : seps2.drop (seps2.length / 2) with
      | [] =>
        exfalso
        rw [hdrop] at hdl
        simp only [List.length_nil] at hdl
        omega
      | (pk, pc) :: l2 =>
        rw [if_neg (by omega), splitInternalList_eq c2 seps2 pk pc l2 hdrop]
        simp only [insOk]
        have hTD : seps2.take (seps2.length / 2) ++ (pk, pc) :: l2 = seps2 := by
          rw [← hdrop]
          exact List.take_append_drop _ _
        have hsplit := searchInvW_split (seps2.take (seps2.length / 2)) lo hi c2
          pk pc l2 (by rw [hTD]; exact hW2)
        obtain ⟨hW1, hlbpk, hfkpc, hW3⟩ := hsplit
        refine ⟨?_, ?_, hlbpk, ?_, ?_, ?_⟩
        · rw [searchInv]
          exact ⟨hne2, hW1⟩
        · rw [searchInv]
          exact ⟨firstKey_ne_nil pc pk hfkpc, hW3⟩
        · rw [firstKey, toEntries,
            head?_append_left _ _ (firstKey_ne_nil pc pk hfkpc)]
          exact hfkpc
        · rw [toEntries]
          intro hcon
          exact hne2 (List.append_eq_nil.1 hcon).1
        · rw [toEntries, toEntries]
          have hseq : toEntriesSeps (seps2.take (seps2.length / 2)) ++
              (toEntries pc ++ toEntriesSeps l2) = toEntriesSeps seps2 := by
            conv_rhs => rw [← hTD]
            rw [toEntriesSeps_append, toEntriesSeps]
          rw [List.append_assoc, hseq]
          exact heq2
termination_by sizeOf n

/-- Inserting a fresh in-window key through the internal-node walk keeps
the walk invariant, keeps the first child non-empty, and turns the
in-order entries into the sorted insertion of the new pair. -/
theorem insertWalk_ok (lo hi : Option String) (c : BNode)
    (seps : List (String × BNode)) (k v : String)
    (hinv : searchInvW lo hi c seps) (hne : toEntries c ≠ [])
    (hlo : lbS lo k) (hhi : ubO hi k)
    (hf : ∀ e ∈ toEntries c ++ toEntriesSeps seps, e.1 ≠ k) :
    walkOk lo hi (toEntries c ++ toEntriesSeps seps) k v
      (insertWalk c seps k v) := by
  match seps with
  | [] =>
    rw [searchInvW] at hinv
    rw [toEntriesSeps, List.append_nil] at hf ⊢
    have hins := insertNode_ok lo hi c k v hinv hlo hhi hf
    rcases hq : insertNode c k v with ⟨c', o⟩
    rw [hq] at hins
    match o with
    | none =>
      simp only [insOk] at hins
      rw [insertWalk_nil_none c c' k v hq]
      simp only [walkOk]
      refine ⟨?_, ?_, ?_⟩
      · rw [searchInvW]; exact hins.1
      · rw [hins.2]; exact leafIns_ne_nil _ _ _
      · rw [toEntriesSeps, List.append_nil]; exact hins.2
    | some (m, sib) =>
      simp only [insOk] at hins
      obtain ⟨hi1, hi2, hi3, hi4, hi5, hi6⟩ := hins
      rw [insertWalk_nil_some c c' sib m k v hq]
      simp only [walkOk]
      refine ⟨?_, hi5, ?_⟩
      · rw [searchInvW]
        refine ⟨hi1, hi3, hi4, ?_⟩
        rw [searchInvW]
        exact hi2
      · rw [toEntriesSeps, toEntriesSeps, List.append_nil]
        exact hi6
  | (s, c1) :: rest =>
    rw [searchInvW] at hinv
    obtain ⟨hc, hls, hfk1, hrest⟩ := hinv
    rw [toEntriesSeps] at hf ⊢
    obtain ⟨w, hhead, hmem1⟩ := firstKey_mem c1 s hfk1
    by_cases hgt : k > s
    · have hne1 : toEntries c1 ≠ [] := firstKey_ne_nil c1 s hfk1
      have hf1 : ∀ e ∈ toEntries c1 ++ toEntriesSeps rest, e.1 ≠ k :=
        fun e he => hf e (List.mem_append_right _ he)
      have hwalk := insertWalk_ok (some s) hi c1 rest k v hrest hne1 hgt hhi hf1
      rcases hp : insertWalk c1 rest k v with ⟨d, ds⟩
      rw [hp] at hwalk
      simp only [walkOk] at hwalk
      obtain ⟨hWd, hned, heqd⟩ := hwalk
      rw [insertWalk_cons_gt c c1 s rest k v hgt, hp]
      simp only [walkOk]
      have hT : toEntries c1 ++ toEntriesSeps rest =
          (s, w) :: ((toEntries c1).tail ++ toEntriesSeps rest) := by
        match hT0 : toEntries c1 with
        | [] => rw [hT0] at hhead; simp at hhead
        | e :: t =>
          rw [hT0] at hhead
          simp only [List.head?_cons, Option.some.injEq] at hhead
          rw [hhead, List.cons_append, List.tail_cons]
      have heqd2 := heqd
      rw [hT, leafIns_cons_lt _ _ _ _ _ hgt] at heqd2
      have hhd : (toEntries d).head? = some (s, w) := by
        rw [← head?_append_left (toEntries d) (toEntriesSeps ds) hned, heqd2]
        rfl
      have hfkd : firstKey d = some s := by
        rw [firstKey, hhd]
        rfl
      have hcl : ∀ e ∈ toEntries c, e.1 < k := by
        intro e he
        have := ((searchInv_entries lo (some s) c hc).2 e he).2
        exact lt_trans this hgt
      refine ⟨?_, hne, ?_⟩
      · rw [searchInvW]
        exact ⟨hc, hls, hfkd, hWd⟩
      · rw [toEntriesSeps, heqd, leafIns_append_left _ _ k v hcl]
    · have hks : k < s := by
        have hsk : s ≠ k :=
          hf (s, w) (List.mem_append_right _ (List.mem_append_left _ hmem1))
        exact lt_of_le_of_ne (not_lt.1 hgt) (Ne.symm hsk)
      have hfc : ∀ e ∈ toEntries c, e.1 ≠ k :=
        fun e he => hf e (List.mem_append_left _ he)
      have hins := insertNode_ok lo (some s) c k v hc hlo hks hfc
      have hright : ∀ e ∈ toEntries c1 ++ toEntriesSeps rest, k < e.1 := by
        intro e he
        have := ((searchInvW_entries (some s) hi c1 rest hrest).2 e he).1
        exact lt_of_lt_of_le hks this
      rcases hq : insertNode c k v with ⟨c', o⟩
      rw [hq] at hins
      match o with
      | none =>
        simp only [insOk] at hins
        rw [insertWalk_cons_le_none c c1 c' s rest k v hgt hq]
        simp only [walkOk]
        refine ⟨?_, ?_, ?_⟩
        · rw [searchInvW]
          exact ⟨hins.1, hls, hfk1, hrest⟩
        · rw [hins.2]; exact leafIns_ne_nil _ _ _
        · rw [toEntriesSeps, hins.2, leafIns_append_right _ _ k v hright]
      | some (m, sib) =>
        simp only [insOk] at hins
        obtain ⟨hi1, hi2, hi3, hi4, hi5, hi6⟩ := hins
        rw [insertWalk_cons_le_some c c1 c' sib s m rest k v hgt hq]
        simp only [walkOk]
        have hms : lbO (some m) s := by
          obtain ⟨wm, _, hmm⟩ := firstKey_mem sib m hi4
          have := ((searchInv_entries (some m) (some s) sib hi2).2
            (m, wm) hmm).2
          exact le_of_lt this
        refine ⟨?_, hi5, ?_⟩
        · rw [searchInvW]
          refine ⟨hi1, hi3, hi4, ?_⟩
          rw [searchInvW]
          exact ⟨hi2, hms, hfk1, hrest⟩
        · rw [toEntriesSeps, toEntriesSeps, ← List.append_assoc, hi6,
            leafIns_append_right _ _ k v hright]
termination_by sizeOf c + sizeOf seps

end

/-- Folding `Insert` over an entry list, starting from the empty tree. -/
def buildTree (l : List (String × String)) : BPlusTree :=
  l.foldl (fun t kv => t.Insert kv.1 kv.2) NewBPlusTree

/-- Insertion sort of an entry list by key, folding the leaf insertion
scan `leafIns` over the list. -/
def insSorted (l : List (String × String)) : List (String × String) :=
  l.foldl (fun acc kv => leafIns acc kv.1 kv.2) []

/-- Root-level insertion: `Insert` keeps the unbounded-window search
invariant and performs a sorted insertion on the in-order entries. -/
theorem Insert_ok (t : BPlusTree) (k v : String)
    (h : searchInv none none t.root)
    (hf : ∀ e ∈ toEntries t.root, e.1 ≠ k) :
    searchInv none none (t.Insert k v).root ∧
      toEntries (t.Insert k v).root = leafIns (toEntries t.root) k v := by
  have hins := insertNode_ok none none t.root k v h trivial trivial hf
  rcases hq : insertNode t.root k v with ⟨r, o⟩
  rw [hq] at hins
  match o with
  | none =>
    simp only [insOk] at hins
    simp only [BPlusTree.Insert, hq]
    exact hins
  | some (m, sib) =>
    simp only [insOk] at hins
    obtain ⟨hi1, hi2, hi3, hi4, hi5, hi6⟩ := hins
    simp only [BPlusTree.Insert, hq]
    constructor
    · rw [searchInv]
      refine ⟨hi5, ?_⟩
      rw [searchInvW]
      refine ⟨hi1, hi3, hi4, ?_⟩
      rw [searchInvW]
      exact hi2
    · rw [toEntries, toEntriesSeps, toEntriesSeps, List.append_nil]
      exact hi6

/-- Folding insertions of distinct fresh keys keeps the invariant and
folds `leafIns` over the in-order entries. -/
theorem foldl_Insert_ok (l : List (String × String)) :
    ∀ t : BPlusTree, searchInv none none t.root →
      (l.map Prod.fst).Nodup →
      (∀ x ∈ (toEntries t.root).map Prod.fst, x ∉ l.map Prod.fst) →
      searchInv none none (l.foldl (fun a kv => a.Insert kv.1 kv.2) t).root ∧
        toEntries (l.foldl (fun a kv => a.Insert kv.1 kv.2) t).root =
          l.foldl (fun acc kv => leafIns acc kv.1 kv.2) (toEntries t.root) := by
  induction l with
  | nil =>
    intro t ht _ _
    exact ⟨ht, rfl⟩
  | cons kv l' ih =>
    intro t ht hnd hdisj
    obtain ⟨k, v⟩ := kv
    have hf : ∀ e ∈ toEntries t.root, e.1 ≠ k := by
      intro e he hek
      exact hdisj e.1 (List.mem_map_of_mem _ he) (by rw [hek]; simp)
    obtain ⟨ht', heq'⟩ := Insert_ok t k v ht hf
    have hnd' : (l'.map Prod.fst).Nodup := by
      rw [List.map_cons, List.nodup_cons] at hnd
      exact hnd.2
    have hkl' : k ∉ l'.map Prod.fst := by
      rw [List.map_cons, List.nodup_cons] at hnd
      exact hnd.1
    have hdisj' : ∀ x ∈ (toEntries (t.Insert k v).root).map Prod.fst,
        x ∉ l'.map Prod.fst := by
      intro x hx
      rw [heq'] at hx
      obtain ⟨e, he, hex⟩ := List.mem_map.1 hx
      rcases (leafIns_mem (toEntries t.root) k v hf e).1 he with he2 | he2
      · rw [← hex, he2]
        exact hkl'
      · intro hcon
        exact hdisj e.1 (List.mem_map_of_mem _ he2)
          (List.mem_cons_of_mem _ (by rw [← hex] at hcon; exact hcon))
    simp only [List.foldl_cons]
    have hrec := ih (t.Insert k v) ht' hnd' hdisj'
    rw [heq'] at hrec
    exact hrec

/-- Building a tree from entries with pairwise-distinct keys: the
invariant holds and the in-order entries are the insertion sort of the
input. -/
theorem buildTree_ok (l : List (String × String))
    (hnd : (l.map Prod.fst).Nodup) :
    searchInv none none (buildTree l).root ∧
      toEntries (buildTree l).root = insSorted l := by
  have h0 : searchInv none none (BNode.leaf []) := by
    rw [searchInv]
    exact ⟨List.Pairwise.nil, fun e he => absurd he (List.not_mem_nil e)⟩
  have hroot : NewBPlusTree.root = BNode.leaf [] := rfl
  have hd0 : ∀ x ∈ (toEntries NewBPlusTree.root).map Prod.fst,
      x ∉ l.map Prod.fst := by
    intro x hx
    rw [hroot, toEntries] at hx
    simp at hx
  have h1 := foldl_Insert_ok l NewBPlusTree (by rw [hroot]; exact h0) hnd hd0
  have hnil : toEntries NewBPlusTree.root = [] := by
    rw [hroot, toEntries]
  rw [hnil] at h1
  simp only [buildTree, insSorted]
  exact h1

/-- Folding `leafIns` over a list of entries with fresh distinct keys:
the accumulated list stays sorted and collects exactly the members. -/
theorem leafIns_foldl_ok (l : List (String × String)) :
    ∀ acc : List (String × String),
      acc.Pairwise (fun a b => a.1 < b.1) →
      (l.map Prod.fst).Nodup →
      (∀ x ∈ acc.map Prod.fst, x ∉ l.map Prod.fst) →
      (l.foldl (fun a kv => leafIns a kv.1 kv.2) acc).Pairwise
          (fun a b => a.1 < b.1) ∧
        ∀ e, e ∈ l.foldl (fun a kv => leafIns a kv.1 kv.2) acc ↔
          e ∈ acc ∨ e ∈ l := by
  induction l with
  | nil =>
    intro acc hs _ _
    exact ⟨hs, fun e => by simp⟩
  | cons kv l' ih =>
    intro acc hs hnd hdisj
    obtain ⟨k, v⟩ := kv
    have hf : ∀ e ∈ acc, e.1 ≠ k := fun e he hek =>
      hdisj e.1 (List.mem_map_of_mem _ he) (by rw [hek]; simp)
    have hs' := leafIns_sorted acc k v hs hf
    have hmm := leafIns_mem acc k v hf
    have hnd' : (l'.map Prod.fst).Nodup := by
      rw [List.map_cons, List.nodup_cons] at hnd
      exact hnd.2
    have hkl' : k ∉ l'.map Prod.fst := by
      rw [List.map_cons, List.nodup_cons] at hnd
      exact hnd.1
    have hdisj' : ∀ x ∈ (leafIns acc k v).map Prod.fst,
        x ∉ l'.map Prod.fst := by
      intro x hx
      obtain ⟨e, he, hex⟩ := List.mem_map.1 hx
      rcases (hmm e).1 he with he2 | he2
      · rw [← hex, he2]
        exact hkl'
      · intro hcon
        exact hdisj x (by rw [← hex]; exact List.mem_map_of_mem _ he2)
          (List.mem_cons_of_mem _ hcon)
    obtain ⟨ihs, ihm⟩ := ih (leafIns acc k v) hs' hnd' hdisj'
    simp only [List.foldl_cons]
    refine ⟨ihs, ?_⟩
    intro e
    rw [ihm e, hmm e]
    simp only [List.mem_cons]
    tauto

/-- Writing an absent key into the map embedding appends the pair. -/
theorem Smap.set_absent (m : Smap String) (k v : String)
    (h : k ∉ m.map Prod.fst) : Smap.set m k v = m ++ [(k, v)] := by
  induction m with
  | nil => rw [Smap.set, List.nil_append]
  | cons e r ih =>
    obtain ⟨k0, v0⟩ := e
    rw [List.map_cons] at h
    have h1 : ¬ k0 = k := by
      intro hc
      exact h (by rw [hc]; exact List.mem_cons_self _ _)
    have h2 : k ∉ r.map Prod.fst := fun hc => h (List.mem_cons_of_mem _ hc)
    rw [Smap.set, if_neg h1, ih h2, List.cons_append]

/-- The `RangeQuery` accumulation over entries with distinct keys is the
filter of the entry list appended to the accumulator. -/
theorem foldl_set_filter (es : List (String × String)) (p : String → Bool) :
    ∀ acc : Smap String,
      (∀ x ∈ acc.map Prod.fst, x ∉ es.map Prod.fst) →
      (es.map Prod.fst).Nodup →
      es.foldl (fun m e => if p e.1 then m.set e.1 e.2 else m) acc =
        acc ++ es.filter (fun e => p e.1) := by
  induction es with
  | nil =>
    intro acc _ _
    simp
  | cons e es' ih =>
    intro acc hdisj hnd
    obtain ⟨k, v⟩ := e
    have hka : k ∉ acc.map Prod.fst := by
      intro hc
      exact hdisj k hc (by simp)
    have hnd' : (es'.map Prod.fst).Nodup := by
      rw [List.map_cons, List.nodup_cons] at hnd
      exact hnd.2
    have hkes' : k ∉ es'.map Prod.fst := by
      rw [List.map_cons, List.nodup_cons] at hnd
      exact hnd.1
    have hdisj' : ∀ x ∈ acc.map Prod.fst, x ∉ es'.map Prod.fst := by
      intro x hx hc
      exact hdisj x hx (by rw [List.map_cons]; exact List.mem_cons_of_mem _ hc)
    simp only [List.foldl_cons]
    by_cases hp : p k = true
    · rw [if_pos hp, Smap.set_absent acc k v hka]
      have hdisj2 : ∀ x ∈ (acc ++ [(k, v)]).map Prod.fst,
          x ∉ es'.map Prod.fst := by
        intro x hx
        rw [List.map_append] at hx
        rcases List.mem_append.1 hx with hx1 | hx2
        · exact hdisj' x hx1
        · simp only [List.map_cons, List.map_nil, List.mem_singleton] at hx2
          rw [hx2]
          exact hkes'
      have hfc : List.filter (fun e => p e.1) ((k, v) :: es') =
          (k, v) :: List.filter (fun e => p e.1) es' := by
        simp [List.filter_cons, hp]
      rw [ih (acc ++ [(k, v)]) hdisj2 hnd', hfc, List.append_assoc,
        List.singleton_append]
    · have hfc : List.filter (fun e => p e.1) ((k, v) :: es') =
          List.filter (fun e => p e.1) es' := by
        simp [List.filter_cons, hp]
      rw [if_neg hp, ih acc hdisj' hnd', hfc]

/-! ### Single-step evaluations of `Insert`/`Delete` on concrete trees

Each lemma performs one tree operation on a literal tree, so that the
concrete scenarios of the claims below are chains of small rewrites. -/

theorem bplus_ins_a : NewBPlusTree.Insert "a" "1" = ⟨.leaf [("a", "1")]⟩ := by
  simp +decide [NewBPlusTree, BPlusTree.Insert, insertNode, leafIns,
    splitLeafList, ORDER]

theorem bplus_ins_b1 : (⟨.leaf [("a", "1")]⟩ : BPlusTree).Insert "b" "1" =
    ⟨.leaf [("a", "1"), ("b", "1")]⟩ := by
  simp +decide [BPlusTree.Insert, insertNode, leafIns, splitLeafList, ORDER]

theorem bplus_ins_cv1 :
    (⟨.leaf [("a", "1"), ("b", "1")]⟩ : BPlusTree).Insert "c" "v1" =
    ⟨.leaf [("a", "1"), ("b", "1"), ("c", "v1")]⟩ := by
  simp +decide [BPlusTree.Insert, insertNode, leafIns, splitLeafList, ORDER]

theorem bplus_ins_d1 :
    (⟨.leaf [("a", "1"), ("b", "1"), ("c", "v1")]⟩ : BPlusTree).Insert "d" "1" =
    ⟨.node (.leaf [("a", "1"), ("b", "1")])
      [("c", .leaf [("c", "v1"), ("d", "1")])]⟩ := by
  simp +decide [BPlusTree.Insert, insertNode, leafIns, splitLeafList, ORDER]

theorem bplus_ins_tie :
    (⟨.node (.leaf [("a", "1"), ("b", "1")])
      [("c", .leaf [("c", "v1"), ("d", "1")])]⟩ : BPlusTree).Insert "c" "v2" =
    ⟨.node (.leaf [("a", "1"), ("b", "1"), ("c", "v2")])
      [("c", .leaf [("c", "v1"), ("d", "1")])]⟩ := by
  simp +decide [BPlusTree.Insert, insertNode, insertWalk, leafIns,
    splitLeafList, splitInternalList, ORDER]

theorem bplus_ins_b2 : (⟨.leaf [("a", "1")]⟩ : BPlusTree).Insert "b" "2" =
    ⟨.leaf [("a", "1"), ("b", "2")]⟩ := by
  simp +decide [BPlusTree.Insert, insertNode, leafIns, splitLeafList, ORDER]

theorem bplus_ins_c3 :
    (⟨.leaf [("a", "1"), ("b", "2")]⟩ : BPlusTree).Insert "c" "3" =
    ⟨.leaf [("a", "1"), ("b", "2"), ("c", "3")]⟩ := by
  simp +decide [BPlusTree.Insert, insertNode, leafIns, splitLeafList, ORDER]

theorem bplus_ins_d4 :
    (⟨.leaf [("a", "1"), ("b", "2"), ("c", "3")]⟩ : BPlusTree).Insert "d" "4" =
    ⟨.node (.leaf [("a", "1"), ("b", "2")])
      [("c", .leaf [("c", "3"), ("d", "4")])]⟩ := by
  simp +decide [BPlusTree.Insert, insertNode, leafIns, splitLeafList, ORDER]

theorem bplus_del_a :
    (⟨.node (.leaf [("a", "1"), ("b", "2")])
      [("c", .leaf [("c", "3"), ("d", "4")])]⟩ : BPlusTree).Delete "a" =
    ⟨.node (.leaf [("b", "2")]) [("c", .leaf [("c", "3"), ("d", "4")])]⟩ := by
  simp +decide [BPlusTree.Delete, delNode, delWalk, delFromLeaf,
    handleUnderflow, redistribute, mergeSiblings, mkInternal, headKeyD,
    BNode.nodeKeys, BNode.nodeChildren, MIN_KEYS, ORDER]

theorem bplus_del_b :
    (⟨.node (.leaf [("b", "2")])
      [("c", .leaf [("c", "3"), ("d", "4")])]⟩ : BPlusTree).Delete "b" =
    ⟨.node (.leaf []) [("c", .leaf [("c", "3"), ("d", "4")])]⟩ := by
  simp +decide [BPlusTree.Delete, delNode, delWalk, delFromLeaf,
    handleUnderflow, redistribute, mergeSiblings, mkInternal, headKeyD,
    BNode.nodeKeys, BNode.nodeChildren, MIN_KEYS, ORDER]

/-! ## Claim theorems -/

set_option maxRecDepth 8192 in
/-- C1: the claim states that on COMMIT-TX for transaction X, `Replay`
applies the buffered operations in the order dropped-tables first, then
upserts, then deletes.  The code (wal.go lines 197-223) applies upserts,
then deletes, and the dropped tables last, which is observable: a
transaction that drops a table and re-populates it commits to no table at
all (first conjunct), although the buffered upsert alone would have
survived (second conjunct) — the drop, applied last, erases it.  (The
repository test `TestWAL_Transactions/TransactionWithDrop` expects the
re-populated table to survive.) -/
theorem C1_replay_commit_applies_drops_last :
    Replay (walLog
      [WalCall.append "" "pre_existing_table" "pk1" "pv1",
       WalCall.beginTx "test_tx_3",
       WalCall.dropTable "test_tx_3" "pre_existing_table",
       WalCall.append "test_tx_3" "pre_existing_table" "pk2" "pv2_in_tx",
       WalCall.commitTx "test_tx_3"]) = [] ∧
    Replay (walLog
      [WalCall.append "" "pre_existing_table" "pk1" "pv1",
       WalCall.beginTx "test_tx_3",
       WalCall.append "test_tx_3" "pre_existing_table" "pk2" "pv2_in_tx",
       WalCall.commitTx "test_tx_3"]) =
      [("pre_existing_table", [("pk1", "pv1"), ("pk2", "pv2_in_tx")])] :=
  ⟨rfl, rfl⟩

/-- C2: the claim states upsert idempotence
(`Insert(k,v1); Insert(k,v2); Get(k) = v2`) including when `k` equals a
separator key, asserting that insert traversal routes ties right.  The
insert descent (bplustree.go line 82) advances only while
`key > n.keys[i]`, routing a tie LEFT, while `Get` (line 161) routes ties
right: after inserting a, b, c, d (splitting into leaves `[a b]` / `[c d]`
under separator `c`), re-inserting `c` places a second copy of `c` in the
left leaf, and `Get` still returns the stale value from the right leaf. -/
theorem C2_insert_tie_left_leaves_stale_value :
    ((((((NewBPlusTree.Insert "a" "1").Insert "b" "1").Insert "c" "v1").Insert
        "d" "1").Insert "c" "v2").Get "c" = some "v1") ∧
    toEntries (((((NewBPlusTree.Insert "a" "1").Insert "b" "1").Insert "c"
        "v1").Insert "d" "1").Insert "c" "v2").root =
      [("a", "1"), ("b", "1"), ("c", "v2"), ("c", "v1"), ("d", "1")] := by
  rw [bplus_ins_a, bplus_ins_b1, bplus_ins_cv1, bplus_ins_d1, bplus_ins_tie]
  constructor
  · simp +decide [BPlusTree.Get, getNode, getWalk, List.find?]
  · simp [toEntries, toEntriesSeps]

/-- C5: the claim states that every non-root node keeps at least
`MIN_KEYS` keys after any `Insert`/`Delete`.  With `MIN_KEYS = 1` an
underflowing node is always empty, so the guard at the top of
`redistribute` (bplustree.go line 291) returns without moving anything on
every call, while `handleUnderflow` (line 261) still reports the
redistribution as successful: after inserting a, b, c, d and deleting a
and b, the left leaf is empty yet stays in the tree, violating the
minimum-occupancy invariant. -/
theorem C5_underflow_repair_noop_leaves_empty_node :
    ((((((NewBPlusTree.Insert "a" "1").Insert "b" "2").Insert "c" "3").Insert
        "d" "4").Delete "a").Delete "b").root =
      BNode.node (.leaf []) [("c", .leaf [("c", "3"), ("d", "4")])] ∧
    minKeysOK true
      ((((((NewBPlusTree.Insert "a" "1").Insert "b" "2").Insert "c" "3").Insert
          "d" "4").Delete "a").Delete "b").root = false := by
  rw [bplus_ins_a, bplus_ins_b2, bplus_ins_c3, bplus_ins_d4, bplus_del_a,
    bplus_del_b]
  refine ⟨rfl, ?_⟩
  simp +decide [minKeysOK, minKeysOKSeps, MIN_KEYS, ORDER]

set_option maxRecDepth 8192 in
/-- C9: the claim states that replaying the log of any sequence of
whitespace-free writer calls exactly reproduces the intended committed
state.  The autocommit instance named by the claim holds (first
conjunct), but the writer/reader round trip fails on a committed
transaction that drops and re-populates a table: the intended state (per
the spec, drops are applied before upserts — and per the repository test
`TestWAL_Transactions/TransactionWithDrop`) is
`pre_existing_table = {pk2: pv2_in_tx}`, while `Replay` of the written
log, applying the buffered drop last, returns no tables at all. -/
theorem C9_roundtrip_fails_on_drop_recreate :
    Replay (walLog [WalCall.append "" "T" "k" "v1", WalCall.append "" "T" "k" "v2"]) =
      [("T", [("k", "v2")])] ∧
    Replay (walLog
      [WalCall.append "" "pre_existing_table" "pk1" "pv1",
       WalCall.beginTx "test_tx_3",
       WalCall.dropTable "test_tx_3" "pre_existing_table",
       WalCall.append "test_tx_3" "pre_existing_table" "pk2" "pv2_in_tx",
       WalCall.commitTx "test_tx_3"]) ≠
      [("pre_existing_table", [("pk2", "pv2_in_tx")])] :=
  ⟨rfl, by decide⟩

/-- C3 counterexample: the claim states that
`Begin; Drop(T); Insert(k2,v2) into T; Commit` leaves `T` containing
exactly `k2: v2`.  On an engine whose table `T` holds `k1: v1`, the
insert into the dropped-marked table is rejected (engine.go lines
373-375) and the commit then removes `T`, so no table `T` exists at all
afterwards. -/
theorem C3_counterexample :
    ((runStmts ⟨[("T", NewBPlusTree.Insert "k1" "v1")], [], "", [], [], [], 0⟩
        [Stmt.beginStmt, Stmt.dropStmt "T", Stmt.insertStmt "T" [("k2", "v2")],
         Stmt.commitStmt]).1.tables.get? "T" = none) ∧
    ¬∃ tr : BPlusTree,
      (runStmts ⟨[("T", NewBPlusTree.Insert "k1" "v1")], [], "", [], [], [], 0⟩
        [Stmt.beginStmt, Stmt.dropStmt "T", Stmt.insertStmt "T" [("k2", "v2")],
         Stmt.commitStmt]).1.tables.get? "T" = some tr ∧
      tr.Get "k2" = some "v2" := by
  refine ⟨rfl, ?_⟩
  rintro ⟨tr, htr, -⟩
  rw [show (runStmts ⟨[("T", NewBPlusTree.Insert "k1" "v1")], [], "", [], [], [], 0⟩
        [Stmt.beginStmt, Stmt.dropStmt "T", Stmt.insertStmt "T" [("k2", "v2")],
         Stmt.commitStmt]).1.tables.get? "T" = none from rfl] at htr
  exact Option.noConfusion htr

/-- C8: `Begin` while a transaction is active, and `Commit`/`Rollback`
while none is active, return an error result and leave the whole engine
state — transaction slot, overlay, tables, WAL log and id counter —
unchanged (engine.go lines 182-183, 194-195, 241-242). -/
theorem C8_txn_control_errors (e eIdle : Engine)
    (hActive : e.currentTxID ≠ "") (hIdle : eIdle.currentTxID = "") :
    Execute e .beginStmt =
      (e, "Error: A transaction is already active. Commit or rollback the current transaction first.") ∧
    Execute eIdle .commitStmt = (eIdle, "Error: No active transaction to commit.") ∧
    Execute eIdle .rollbackStmt = (eIdle, "Error: No active transaction to rollback.") := by
  refine ⟨?_, ?_, ?_⟩ <;> simp [Execute, hActive, hIdle]

/-- C8 witness: the theorem applied to a concrete busy engine and a
concrete idle engine. -/
theorem C8_txn_control_errors_witness :
    (Engine.currentTxID ⟨[], [], "tx_1", [], [], [], 0⟩ ≠ "") ∧
    Execute ⟨[], [], "tx_1", [], [], [], 0⟩ .beginStmt =
      (⟨[], [], "tx_1", [], [], [], 0⟩,
        "Error: A transaction is already active. Commit or rollback the current transaction first.") ∧
    Execute idleEngine .commitStmt = (idleEngine, "Error: No active transaction to commit.") ∧
    Execute idleEngine .rollbackStmt = (idleEngine, "Error: No active transaction to rollback.") := by
  have h := C8_txn_control_errors ⟨[], [], "tx_1", [], [], [], 0⟩ idleEngine
    (by decide) rfl
  exact ⟨by decide, h.1, h.2.1, h.2.2⟩

theorem C3_amended (e : Engine) (T k2 v2 : String) (tr : BPlusTree)
    (hNodup : (e.tables.map Prod.fst).Nodup)
    (hIdle : e.currentTxID = "") (hT : e.tables.get? T = some tr) :
    (runStmts e [Stmt.beginStmt, Stmt.dropStmt T, Stmt.insertStmt T [(k2, v2)],
        Stmt.commitStmt]).1.tables.get? T = none ∧
    (runStmts e [Stmt.beginStmt, Stmt.dropStmt T, Stmt.insertStmt T [(k2, v2)],
        Stmt.commitStmt]).2 =
      ["Transaction started: " ++ ("tx_" ++ toString e.clock),
       "Buffered DROP for table " ++ q T,
       "Table " ++ q T ++
         " marked for drop within this transaction, cannot insert into it",
       "Transaction " ++ ("tx_" ++ toString e.clock) ++ " committed."] := by
  set txID := "tx_" ++ toString e.clock with htx
  set e1 : Engine := ⟨e.tables, e.walLines ++ [walBeginTxLine txID],
    txID, [], [], [], e.clock + 1⟩ with he1
  have s1 : Execute e .beginStmt = (e1, "Transaction started: " ++ txID) := by
    simp [Execute, hIdle, he1]
  set e2 : Engine := ⟨e.tables, e1.walLines, txID, [], [], [(T, ())], e.clock + 1⟩ with he2
  have s2 : Execute e1 (.dropStmt T) = (e2, "Buffered DROP for table " ++ q T) := by
    simp [Execute, executeInTransaction, he1, he2, htx, txPrefix_ne_empty, hT,
      Smap.set, Smap.erase]
  have s3 : Execute e2 (.insertStmt T [(k2, v2)]) =
      (e2, "Table " ++ q T ++
        " marked for drop within this transaction, cannot insert into it") := by
    simp [Execute, executeInTransaction, he2, htx, txPrefix_ne_empty, Smap.get?, List.find?]
  set e4 : Engine := ⟨e.tables.erase T,
    (e1.walLines ++ [walDropTableLine txID T]) ++ [walCommitTxLine txID],
    "", [], [], [], e.clock + 1⟩ with he4
  have s4 : Execute e2 .commitStmt = (e4, "Transaction " ++ txID ++ " committed.") := by
    simp [Execute, applyCommit, he2, he4, htx, txPrefix_ne_empty, Smap.get?, List.find?]
  refine ⟨?_, ?_⟩ <;>
    simp [runStmts, s1, s2, s3, s4, he4, Smap.get?_erase_self_of_nodup hNodup]

theorem C3_amended_witness :
    ((Engine.tables ⟨[("T", NewBPlusTree.Insert "k1" "v1")], [], "", [], [], [], 0⟩).map
        Prod.fst).Nodup ∧
    Engine.currentTxID ⟨[("T", NewBPlusTree.Insert "k1" "v1")], [], "", [], [], [], 0⟩ = "" ∧
    (Engine.tables ⟨[("T", NewBPlusTree.Insert "k1" "v1")], [], "", [], [], [], 0⟩).get? "T" =
      some (NewBPlusTree.Insert "k1" "v1") ∧
    ((runStmts ⟨[("T", NewBPlusTree.Insert "k1" "v1")], [], "", [], [], [], 0⟩
        [Stmt.beginStmt, Stmt.dropStmt "T", Stmt.insertStmt "T" [("k2", "v2")],
         Stmt.commitStmt]).1.tables.get? "T" = none) := by
  refine ⟨by decide, rfl, rfl, ?_⟩
  exact (C3_amended ⟨[("T", NewBPlusTree.Insert "k1" "v1")], [], "", [], [], [], 0⟩
    "T" "k2" "v2" (NewBPlusTree.Insert "k1" "v1") (by decide) rfl rfl).1

theorem C10_select_missing_table (e eIdle : Engine) (T : String) (keys : List String)
    (hActive : e.currentTxID ≠ "")
    (hTab : e.tables.get? T = none)
    (hChg : e.txChanges.get? T = none)
    (hDel : e.txDeletes.get? T = none)
    (hDrop : e.txDroppedTables.get? T = none)
    (hIdle : eIdle.currentTxID = "") (hTab2 : eIdle.tables.get? T = none) :
    Execute e (.selectStmt T keys) = (e, "No results") ∧
    Execute eIdle (.selectStmt T keys) = (eIdle, "Table " ++ q T ++ " not found") := by
  constructor
  · simp only [Execute, if_neg hActive]
    cases keys with
    | nil => simp [executeInTransaction, hTab, hChg, hDel, hDrop]
    | cons k ks =>
      simp only [executeInTransaction, hTab, hChg, hDel, hDrop]
      simp [Smap.get?, List.find?]
  · simp [Execute, executeAutocommit, hIdle, hTab2]

theorem C10_select_missing_table_witness :
    (Engine.currentTxID ⟨[], [], "tx_9", [], [], [], 1⟩ ≠ "") ∧
    Execute ⟨[], [], "tx_9", [], [], [], 1⟩ (.selectStmt "ghost" ["k"]) =
      (⟨[], [], "tx_9", [], [], [], 1⟩, "No results") ∧
    Execute idleEngine (.selectStmt "ghost" ["k"]) =
      (idleEngine, "Table " ++ q "ghost" ++ " not found") := by
  have h := C10_select_missing_table ⟨[], [], "tx_9", [], [], [], 1⟩ idleEngine
    "ghost" ["k"] (by decide) rfl rfl rfl rfl rfl rfl
  exact ⟨by decide, h.1, h.2⟩

/-- C7: while a transaction is active no buffered statement mutates any
live table index, and `Rollback` only discards the overlay: for every
idle engine state, running `Begin`, any sequence of bufferable statements
and `Rollback` leaves the live table map (and with it every table index)
exactly as before. -/
theorem C7_rollback_restores_tables (e : Engine) (l : List Stmt)
    (hIdle : e.currentTxID = "") (hl : ∀ s ∈ l, s.bufferable = true) :
    (runStmts e ([Stmt.beginStmt] ++ l ++ [Stmt.rollbackStmt])).1.tables = e.tables := by
  -- Step 1: Begin.
  have s1 : Execute e .beginStmt =
      (⟨e.tables, e.walLines ++ [walBeginTxLine ("tx_" ++ toString e.clock)],
        "tx_" ++ toString e.clock, [], [], [], e.clock + 1⟩,
       "Transaction started: " ++ ("tx_" ++ toString e.clock)) := by
    simp [Execute, hIdle]
  -- Step 2: the bufferable block preserves tables and keeps the tx active.
  have main : ∀ (l2 : List Stmt) (e2 : Engine) (msgs : List String),
      (∀ s ∈ l2, s.bufferable = true) → ¬e2.currentTxID = "" →
      ((l2.foldl (fun acc s => let r := Execute acc.1 s; (r.1, acc.2 ++ [r.2]))
          (e2, msgs)).1.tables = e2.tables ∧
       (l2.foldl (fun acc s => let r := Execute acc.1 s; (r.1, acc.2 ++ [r.2]))
          (e2, msgs)).1.currentTxID = e2.currentTxID) := by
    intro l2
    induction l2 with
    | nil => intro e2 msgs _ _; exact ⟨rfl, rfl⟩
    | cons s t ih =>
      intro e2 msgs hl2 hact
      have hs := hl2 s (List.mem_cons_self s t)
      have hex := Execute_inTx_eq e2 s hs hact
      have hpres := execInTx_preserves e2 s
      simp only [List.foldl_cons]
      have ih2 := ih ((Execute e2 s).1) (msgs ++ [(Execute e2 s).2])
        (fun x hx => hl2 x (List.mem_cons_of_mem s hx))
        (by rw [hex]; rw [hpres.2]; exact hact)
      exact ⟨ih2.1.trans (by rw [hex]; exact hpres.1),
             ih2.2.trans (by rw [hex]; exact hpres.2)⟩
  -- Assemble.
  simp only [runStmts, List.foldl_append, List.foldl_cons, List.foldl_nil, s1]
  set eB : Engine := ⟨e.tables, e.walLines ++ [walBeginTxLine ("tx_" ++ toString e.clock)],
    "tx_" ++ toString e.clock, [], [], [], e.clock + 1⟩ with heB
  have hact : ¬eB.currentTxID = "" := by
    simp [heB, txPrefix_ne_empty]
  have hmid := main l eB ["Transaction started: " ++ ("tx_" ++ toString e.clock)] hl hact
  -- Rollback at the end.
  set mid := l.foldl (fun acc s => let r := Execute acc.1 s; (r.1, acc.2 ++ [r.2]))
    (eB, ["Transaction started: " ++ ("tx_" ++ toString e.clock)]) with hmidDef
  have hroll : (Execute mid.1 .rollbackStmt).1.tables = mid.1.tables := by
    have hne : ¬mid.1.currentTxID = "" := by
      rw [hmid.2]; exact hact
    simp [Execute, hne]
  show (Execute mid.1 .rollbackStmt).1.tables = e.tables
  rw [hroll, hmid.1]

theorem C7_rollback_restores_tables_witness :
    (Engine.currentTxID ⟨[("T", NewBPlusTree.Insert "a" "1")], [], "", [], [], [], 0⟩ = "") ∧
    (∀ s ∈ [Stmt.insertStmt "T" [("x", "9")], Stmt.deleteStmt "T" ["a"],
        Stmt.dropStmt "T", Stmt.selectStmt "T" []], s.bufferable = true) ∧
    (runStmts ⟨[("T", NewBPlusTree.Insert "a" "1")], [], "", [], [], [], 0⟩
        ([Stmt.beginStmt] ++
          [Stmt.insertStmt "T" [("x", "9")], Stmt.deleteStmt "T" ["a"],
           Stmt.dropStmt "T", Stmt.selectStmt "T" []] ++
          [Stmt.rollbackStmt])).1.tables =
      Engine.tables ⟨[("T", NewBPlusTree.Insert "a" "1")], [], "", [], [], [], 0⟩ := by
  refine ⟨rfl, by decide, ?_⟩
  exact C7_rollback_restores_tables
    ⟨[("T", NewBPlusTree.Insert "a" "1")], [], "", [], [], [], 0⟩
    [Stmt.insertStmt "T" [("x", "9")], Stmt.deleteStmt "T" ["a"],
     Stmt.dropStmt "T", Stmt.selectStmt "T" []] rfl (by decide)

/-- C4: a transaction with tagged records but no COMMIT-TX (nor
ROLLBACK-TX) contributes nothing to the committed state `Replay` returns:
the replay of the log equals the replay of the log with every record of
that transaction removed (wal.go lines 138-190 only buffer tagged
records; only the COMMIT_TX case at lines 193-224 moves a buffer into
`tablesData`). -/
theorem C4_uncommitted_invisible (X : String) (calls : List WalCall)
    (hX : wfStr X) (hwf : ∀ c ∈ calls, c.wf)
    (hnc : WalCall.commitTx X ∉ calls) (hnr : WalCall.rollbackTx X ∉ calls) :
    Replay (walLog calls) =
      Replay (walLog (calls.filter (fun c => !c.taggedBy X))) := by
  have h := replayScan_filter_InvX X hX calls hwf hnc hnr
    RState.initial RState.initial ⟨rfl, rfl, rfl, rfl⟩
  unfold Replay replayScan
  rw [h.1]

/-- C4 witness: `BeginTx(X); Append(X,"T","k","v")` with no terminating
marker replays to a state with no tables at all. -/
theorem C4_uncommitted_invisible_witness :
    wfStr "X" ∧
    (∀ c ∈ [WalCall.beginTx "X", WalCall.append "X" "T" "k" "v"], c.wf) ∧
    (WalCall.commitTx "X" ∉ [WalCall.beginTx "X", WalCall.append "X" "T" "k" "v"]) ∧
    (WalCall.rollbackTx "X" ∉ [WalCall.beginTx "X", WalCall.append "X" "T" "k" "v"]) ∧
    Replay (walLog [WalCall.beginTx "X", WalCall.append "X" "T" "k" "v"]) = [] := by
  refine ⟨by decide, by decide, by decide, by decide, ?_⟩
  have h := C4_uncommitted_invisible "X"
    [WalCall.beginTx "X", WalCall.append "X" "T" "k" "v"]
    (by decide) (by decide) (by decide) (by decide)
  rw [h]
  rfl

/-- C6: for every set of entries (pairwise-distinct keys) inserted in any
order and every pair of bounds, `RangeQuery` returns exactly the entries
whose key passes the bound filter (an empty bound is unbounded on that
side): the result equals the filtered insertion sort of the inputs, an
entry is returned iff it was inserted and its key passes the filter, the
returned keys are strictly sorted and duplicate-free, and with both
bounds empty every inserted entry is returned. -/
theorem C6_rangequery_sorted_exact (l : List (String × String))
    (lo hi : String) (hnd : (l.map Prod.fst).Nodup) :
    (buildTree l).RangeQuery lo hi =
        (insSorted l).filter (fun e => boundOk lo hi e.1) ∧
      (∀ e : String × String, e ∈ (buildTree l).RangeQuery lo hi ↔
          e ∈ l ∧ boundOk lo hi e.1 = true) ∧
      (((buildTree l).RangeQuery lo hi).map Prod.fst).Pairwise
          (fun a b => a < b) ∧
      (((buildTree l).RangeQuery lo hi).map Prod.fst).Nodup ∧
      (lo = "" → hi = "" → (buildTree l).RangeQuery lo hi = insSorted l) := by
  obtain ⟨hinv, hent⟩ := buildTree_ok l hnd
  obtain ⟨hsrt, hmem⟩ := leafIns_foldl_ok l [] List.Pairwise.nil hnd
    (by intro x hx; simp at hx)
  have hIa : insSorted l = l.foldl (fun a kv => leafIns a kv.1 kv.2) [] := rfl
  rw [← hIa] at hsrt hmem
  have hndk : ((insSorted l).map Prod.fst).Nodup :=
    (List.pairwise_map.mpr hsrt).imp ne_of_lt
  have hq : (buildTree l).RangeQuery lo hi =
      (insSorted l).filter (fun e => boundOk lo hi e.1) := by
    rw [BPlusTree.RangeQuery, hent,
      foldl_set_filter (insSorted l) (boundOk lo hi) []
        (by intro x hx; simp at hx) hndk,
      List.nil_append]
  have hfsub : ((insSorted l).filter
      (fun e => boundOk lo hi e.1)).Pairwise (fun a b => a.1 < b.1) :=
    hsrt.filter (fun e => boundOk lo hi e.1)
  refine ⟨hq, ?_, ?_, ?_, ?_⟩
  · intro e
    rw [hq, List.mem_filter]
    constructor
    · intro ⟨h1, h2⟩
      refine ⟨?_, h2⟩
      rcases (hmem e).1 h1 with h3 | h3
      · exact absurd h3 (List.not_mem_nil e)
      · exact h3
    · intro ⟨h1, h2⟩
      exact ⟨(hmem e).2 (Or.inr h1), h2⟩
  · rw [hq]
    exact List.pairwise_map.mpr hfsub
  · rw [hq]
    exact (List.pairwise_map.mpr hfsub).imp ne_of_lt
  · intro h1 h2
    rw [hq, h1, h2]
    refine List.filter_eq_self.mpr ?_
    intro e _
    rw [boundOk]
    simp

/-- Witness for C6 at the worked example of the spec: insert d, b, a, c,
e in that order, then range-query b..d. -/
theorem C6_rangequery_sorted_exact_witness :
    (([("d", "4"), ("b", "2"), ("a", "1"), ("c", "3"),
        ("e", "5")].map Prod.fst).Nodup) ∧
      (buildTree [("d", "4"), ("b", "2"), ("a", "1"), ("c", "3"),
          ("e", "5")]).RangeQuery "b" "d" =
        [("b", "2"), ("c", "3"), ("d", "4")] := by
  refine ⟨by decide, ?_⟩
  rw [(C6_rangequery_sorted_exact
    [("d", "4"), ("b", "2"), ("a", "1"), ("c", "3"), ("e", "5")]
    "b" "d" (by decide)).1]
  simp +decide [insSorted, leafIns, boundOk]

end TinyDB
